import Mathlib

/-!
Verification of the ArrayVector codec of a DolphinDB wire-protocol client
(`src/types/array_vector.rs`).

The Rust code is shallowly embedded as follows.

* Byte streams are `List Nat`, every entry a byte value `< 256` for streams
  the program itself produces (adversarial input streams are arbitrary lists;
  the decoder only ever compares byte values, so junk entries never break
  well-formedness of the embedding).
* Machine integers are `Nat` with explicit `% 2 ^ w` at the points where the
  Rust code casts (`as u32`, `as u16`) or where wrap-around can occur.
  `usize` is 64 bits; `usizeMax = 2 ^ 64 - 1`.
* An element of a numeric array vector (`i8`, `i16`, `i32`, `i64`, and the
  raw IEEE bit patterns of `f32`, `f64`) is represented by its `8 * k`-bit
  pattern `Fin (2 ^ (8 * k))` where `k` is the byte width
  (`i8 ↦ 1, i16 ↦ 2, i32/f32 ↦ 4, i64/f64 ↦ 8`).  The macro-generated
  `put_*_le` / `read_*_le` pairs all write / read exactly the `k`
  little-endian bytes of that pattern, so one definition parametrised by `k`
  embeds all six macro instances; the big-endian readers (`read_i16`, ...)
  read the same bytes most-significant first.
* Fallible Rust code (`Result`) becomes `Except Error`; a failing
  `tokio` read on an exhausted reader is `Error.ioEof`.
-/

namespace DolphinDB

/-- Maximum value of `usize` (64-bit platform). -/
def usizeMax : Nat := 2 ^ 64 - 1

/-- Error variants used by `array_vector.rs` (the crate's `error.rs` is not
part of the sources; the variants and their fields are transcribed from the
construction sites in `array_vector.rs` and the spec's error taxonomy:
`Unsupported {data_form, data_type}`, `InvalidData {expect, actual}`, and an
`Io` error for reads hitting the end of the stream). -/
inductive Error where
  | unsupported (dataForm dataType : String)
  | invalidData (expect actual : String)
  | ioEof
deriving DecidableEq

/-- Is an `Error` the `InvalidData` variant? -/
def Error.isInvalidData : Error → Bool
  | .invalidData _ _ => true
  | _ => false

/-- `flatMapL f [x1, ..., xn] = f x1 ++ ... ++ f xn` (local flat-map used to
concatenate per-element byte encodings). -/
def flatMapL (f : α → List β) : List α → List β
  | [] => []
  | x :: xs => f x ++ flatMapL f xs

/-- Little-endian base-256 digits: `encLE k v` is the `k` low-order bytes of
`v`, least significant first (the byte encoding used by `put_u16_le`,
`put_u32_le`, ... for values that fit). -/
def encLE : Nat → Nat → List Nat
  | 0, _ => []
  | k + 1, v => v % 256 :: encLE k (v / 256)

/-- Recompose a little-endian byte list into a number. -/
def decLE : List Nat → Nat
  | [] => 0
  | b :: bs => b + 256 * decLE bs

/-- `bytes.put_u8` -/
def putU8 (v : Nat) : List Nat := [v % 256]

/-- `bytes.put_i8` -/
def putI8 (v : Int) : List Nat := [(v % 256).toNat]

/-- `bytes.put_u16_le` -/
def putU16le (v : Nat) : List Nat := [v % 256, v / 256 % 256]

/-- `bytes.put_u32_le` -/
def putU32le (v : Nat) : List Nat :=
  [v % 256, v / 256 % 256, v / 65536 % 256, v / 16777216 % 256]

/-- The struct `ArrayVector<S> { data: Vec<S>, index: Vec<usize> }`:
a concatenated data buffer plus the vector of cumulative row-end offsets. -/
structure ArrayVector (α : Type) where
  data : List α
  index : List Nat
deriving DecidableEq

namespace ArrayVector

/-- `ArrayVector::new()` -/
def new : ArrayVector α := ⟨[], []⟩

/-- `ArrayVector::clear(&mut self)` (returns the cleared vector). -/
def clear (_ : ArrayVector α) : ArrayVector α := ⟨[], []⟩

/-- `ArrayVector::len(): self.index.len()` -/
def len (a : ArrayVector α) : Nat := a.index.length

/-- `ArrayVector::is_empty(): self.data.is_empty()` -/
def isEmpty (a : ArrayVector α) : Bool := a.data.isEmpty

/-- `ArrayVector::push(value: Vec<S>)`: extends `data` and pushes the new
total data length onto `index`. -/
def push (a : ArrayVector α) (value : List α) : ArrayVector α :=
  ⟨a.data ++ value, a.index ++ [(a.data ++ value).length]⟩

end ArrayVector

/-- `ArrayVectorImpl::is_empty(): self.len() == 0` (the enum wrapper
delegates `len` to the payload's `len`, i.e. the index length). -/
def implIsEmpty (a : ArrayVector α) : Bool := a.len == 0

/-- `*index.last().unwrap_or(&0)` -/
def lastD : List Nat → Nat
  | [] => 0
  | [x] => x
  | _ :: x :: xs => lastD (x :: xs)

/-- Boolean test that a list of offsets is non-strictly monotonically
non-decreasing. -/
def nonDecr : List Nat → Bool
  | [] => true
  | [_] => true
  | x :: y :: ys => decide (x ≤ y) && nonDecr (y :: ys)

/-- The three `ArrayVector` invariants stated by the spec: `index` is
non-strictly monotonically non-decreasing, `index.last() == data.len()`
when `index` is non-empty, and `len() == index.len()`. -/
def invariants (a : ArrayVector α) : Prop :=
  nonDecr a.index = true ∧
    (a.index ≠ [] → lastD a.index = a.data.length) ∧
    a.len = a.index.length

instance (a : ArrayVector α) : Decidable (invariants a) := by
  unfold invariants; infer_instance

/-- `impl Index<usize> for ArrayVector<T>`: row `id` is
`&self.data[start..end]` with `start = if id == 0 { 0 } else { index[id-1] }`
and `end = index[id]`.  Rust panics when `id` is out of bounds for `index`,
when `start > end`, or when `end > data.len()`; a panic is modelled as
`none`. -/
def getRow (a : ArrayVector α) (i : Nat) : Option (List α) :=
  if i < a.index.length then
    if (if i = 0 then 0 else a.index.getD (i - 1) 0) ≤ a.index.getD i 0 ∧
        a.index.getD i 0 ≤ a.data.length then
      some ((a.data.drop (if i = 0 then 0 else a.index.getD (i - 1) 0)).take
        (a.index.getD i 0 - (if i = 0 then 0 else a.index.getD (i - 1) 0)))
    else none
  else none

/-- The states reachable from `ArrayVector::new()` by the public mutators
`push` and `clear`. -/
inductive Reachable : ArrayVector α → Prop
  | new : Reachable ArrayVector.new
  | push (a : ArrayVector α) (v : List α) : Reachable a → Reachable (a.push v)
  | clear (a : ArrayVector α) : Reachable a → Reachable a.clear

/-- Element bit patterns of byte width `k` (e.g. `k = 1` for `i8`,
`k = 4` for `i32` and for the raw bits of `f32`). -/
abbrev Elem (k : Nat) := Fin (2 ^ (8 * k))

/-- The index part of `serialize_le`: for each cumulative offset the running
difference against the previous offset is emitted as a `u32` (the Rust code
computes `*index as u32 - prev` on `u32`s, i.e. both the offset and the
stored previous offset are truncated `% 2 ^ 32`, and the subtraction wraps;
`prev` below is the already-truncated previous value, `< 2 ^ 32`). -/
def serializeDeltas : List Nat → Nat → List Nat
  | [], _ => []
  | i :: rest, prev =>
    putU32le ((i % 2 ^ 32 + (2 ^ 32 - prev)) % 2 ^ 32) ++
      serializeDeltas rest (i % 2 ^ 32)

/-- `Serialize::serialize_le` for `ArrayVector` (macro `serialize!`):
empty vectors emit nothing and return `Ok(0)`; otherwise one block is
emitted — `count` as `u16` LE, the index-width byte `4`, the reserved byte
`0`, the `u32` deltas, then the elements' little-endian bytes — and the
return value is `Ok(1)`.  The result pairs the returned count with the
bytes appended to the buffer. -/
def serializeLE (k : Nat) (a : ArrayVector (Elem k)) :
    Except Error (Nat × List Nat) :=
  if a.len = 0 then .ok (0, [])
  else
    .ok (1,
      putU16le a.len ++ putU8 4 ++ putI8 0 ++
        serializeDeltas a.index 0 ++
        flatMapL (fun v => encLE k v.val) a.data)

/-- `Serialize::serialize` for `ArrayVector` (big-endian entry point):
unconditionally `Err(Unsupported { data_form: "ArrayVector", data_type:
"ALL" })`. -/
def serialize (k : Nat) (_ : ArrayVector (Elem k)) :
    Except Error (Nat × List Nat) :=
  .error (.unsupported "ArrayVector" "ALL")

/-- `reader.read_u8()` -/
def readU8 : List Nat → Except Error (Nat × List Nat)
  | b :: rest => .ok (b, rest)
  | [] => .error .ioEof

/-- `reader.read_i8()` (the byte is returned raw; the caller discards it). -/
def readI8 : List Nat → Except Error (Nat × List Nat)
  | b :: rest => .ok (b, rest)
  | [] => .error .ioEof

/-- `reader.read_u16_le()` -/
def readU16le : List Nat → Except Error (Nat × List Nat)
  | b0 :: b1 :: rest => .ok (b0 + 256 * b1, rest)
  | _ => .error .ioEof

/-- `reader.read_u32_le()` -/
def readU32le : List Nat → Except Error (Nat × List Nat)
  | b0 :: b1 :: b2 :: b3 :: rest =>
    .ok (b0 + 256 * b1 + 65536 * b2 + 16777216 * b3, rest)
  | _ => .error .ioEof

/-- One delta read of `deserialize_le` / `deserialize`: the
`match size_of_index_data` on widths 1, 2, 4, with any other width byte
rejected as `InvalidData { expect: "size_of_index_data: 1 2 4",
actual: format!("{}", size_of_index_data) }`. -/
def readDelta (w : Nat) (s : List Nat) : Except Error (Nat × List Nat) :=
  match w with
  | 1 => readU8 s
  | 2 => readU16le s
  | 4 => readU32le s
  | _ => .error (.invalidData "size_of_index_data: 1 2 4" (toString w))

/-- The `for _ in 0..len` delta loop of deserialization: reads `cnt` deltas
of width `w`, accumulating `prev = prev.checked_add(delta)` (failure is
`Unsupported { data_form: "ArrayVector", data_type: "Index overflow" }`)
and pushing each new running sum onto the index vector. -/
def readDeltas (w : Nat) :
    Nat → Nat → List Nat → List Nat →
      Except Error (Nat × List Nat × List Nat)
  | 0, prev, idx, s => .ok (prev, idx, s)
  | cnt + 1, prev, idx, s =>
    match readDelta w s with
    | Except.error e => Except.error e
    | .ok (delta, s1) =>
      if prev + delta ≤ usizeMax then
        readDeltas w cnt (prev + delta) (idx ++ [prev + delta]) s1
      else .error (.unsupported "ArrayVector" "Index overflow")

/-- One data element read: `reader.read_*_le()` takes the element's `k`
bytes little-endian (`le = true`) or big-endian (`le = false`) and yields
its bit pattern. -/
def readElem (k : Nat) (le : Bool) (s : List Nat) :
    Except Error (Elem k × List Nat) :=
  if k ≤ s.length then
    .ok (⟨(if le then decLE (s.take k) else decLE (s.take k).reverse) %
            2 ^ (8 * k),
          Nat.mod_lt _ (Nat.two_pow_pos (8 * k))⟩,
      s.drop k)
  else .error .ioEof

/-- The `for _ in 0..total_elements` data loop of deserialization. -/
def readElems (k : Nat) (le : Bool) :
    Nat → List (Elem k) → List Nat →
      Except Error (List (Elem k) × List Nat)
  | 0, acc, s => .ok (acc, s)
  | cnt + 1, acc, s =>
    match readElem k le s with
    | Except.error e => Except.error e
    | .ok (v, s1) => readElems k le cnt (acc ++ [v]) s1

/-- The `while target_num > 0` block loop of `deserialize_le` /
`deserialize`.  Each iteration reads one block: `len: u16` LE,
`size_of_index_data: u8`, a discarded `i8`, `len` deltas (extending the
accumulated index), then `cur_last_index - last_index` data elements.
`target_num -= len` is `usize` arithmetic, so it wraps `% 2 ^ 64`.
The loop is driven by fuel; every iteration consumes at least the four
header bytes of the stream (or fails with an I/O error), so fuel
`s.length + 1` is never exhausted before the stream is, and the
fuel-exhaustion branch returns the same end-of-stream error a read would. -/
def deserializeLoop (k : Nat) (le : Bool) :
    Nat → Nat → Nat → Nat → List Nat → List (Elem k) → List Nat →
      Except Error (ArrayVector (Elem k) × List Nat)
  | 0, _, _, _, _, _, _ => .error .ioEof
  | fuel + 1, targetNum, prev, lastIndex, index, data, s =>
    if targetNum = 0 then .ok (⟨data, index⟩, s)
    else
      match readU16le s with
      | Except.error e => Except.error e
      | .ok (len, s1) =>
        match readU8 s1 with
        | Except.error e => Except.error e
        | .ok (w, s2) =>
          match readI8 s2 with
          | Except.error e => Except.error e
          | .ok (_, s3) =>
            match readDeltas w len prev index s3 with
            | .error e => .error e
            | .ok (prev1, index1, s4) =>
              let curLast := lastD index1
              match readElems k le (curLast - lastIndex) data s4 with
              | .error e => .error e
              | .ok (data1, s5) =>
                deserializeLoop k le fuel
                  ((targetNum + 2 ^ 64 - len) % 2 ^ 64)
                  prev1 curLast index1 data1 s5

/-- `Deserialize::deserialize_le` for `ArrayVector`: the expected row count
(`target_num = self.index.len()`) is the decoder's pre-set length; the
state starts at `prev = 0`, `last_index = 0`, empty accumulators. -/
def deserializeLE (k : Nat) (expected : Nat) (s : List Nat) :
    Except Error (ArrayVector (Elem k) × List Nat) :=
  deserializeLoop k true (s.length + 1) expected 0 0 [] [] s

/-- `Deserialize::deserialize` for `ArrayVector` (big-endian entry point):
identical to `deserialize_le` except that data elements are read
big-endian (the macro only varies `$read_func`; the count and the deltas
are read little-endian in both). -/
def deserializeBE (k : Nat) (expected : Nat) (s : List Nat) :
    Except Error (ArrayVector (Elem k) × List Nat) :=
  deserializeLoop k false (s.length + 1) expected 0 0 [] [] s

/-- Differences of a cumulative offset list against a running previous
value: `diffs p [i1, i2, ...] = [i1 - p, i2 - i1, ...]` (the per-row sizes
that the spec calls deltas). -/
def diffs : Nat → List Nat → List Nat
  | _, [] => []
  | prev, i :: rest => (i - prev) :: diffs i rest

/-- Cumulative sums: `cumSums p [d1, d2, ...] = [p + d1, p + d1 + d2, ...]`
(the index vector reconstructed from deltas). -/
def cumSums : Nat → List Nat → List Nat
  | _, [] => []
  | prev, d :: rest => (prev + d) :: cumSums (prev + d) rest

/-- A wire block holding the given rows: `count` as `u16` LE, width byte
`w`, reserved byte `0`, one delta of `w` bytes per row (the row's length),
then the concatenated row elements in their little-endian encoding.
This is the block format of the spec, used to build input streams for the
decoder. -/
def mkBlock (k w : Nat) (rows : List (List (Elem k))) : List Nat :=
  putU16le rows.length ++ [w, 0] ++
    flatMapL (fun r => encLE w r.length) rows ++
    flatMapL (fun v => encLE k v.val) rows.flatten

/-- Modelled from the spec's words for C2: the single-block layout that
`serialize_le` is claimed to emit — the count as a little-endian `u16`
*equal to* `a.len()` (written `[n % 256, n / 256]`: only when
`a.len() < 2 ^ 16` are both entries bytes denoting `a.len()`), the width
byte `4`, the reserved byte `0`, one little-endian `u32` *equal to*
`index[i] - index[i-1]` per row (top digit `d / 2 ^ 24` likewise unreduced),
then the elements' little-endian bytes. -/
def specBlockLayout (k : Nat) (a : ArrayVector (Elem k)) : List Nat :=
  [a.len % 256, a.len / 256] ++ [4, 0] ++
    flatMapL (fun d => [d % 256, d / 256 % 256, d / 65536 % 256,
      d / 16777216]) (diffs 0 a.index) ++
    flatMapL (fun v => encLE k v.val) a.data

/-- Modelled from the spec's words for C6:
`row[i] = data[index[i-1]..index[i]]` with `index[-1] ≡ 0`. -/
def rowSpec (a : ArrayVector α) (i : Nat) : List α :=
  (a.data.drop (if i = 0 then 0 else a.index.getD (i - 1) 0)).take
    (a.index.getD i 0 - (if i = 0 then 0 else a.index.getD (i - 1) 0))

/-- Row-by-row equality of two array vectors: same row count and equal rows
at every position (for float element types equality of bit patterns; a NaN
keeps its bit pattern through the codec, so bit equality subsumes the
spec's is_nan-based comparison). -/
def rowByRowEq (a b : ArrayVector α) : Prop :=
  a.len = b.len ∧ ∀ i, i < a.len → getRow a i = getRow b i

instance [DecidableEq α] (a b : ArrayVector α) :
    Decidable (rowByRowEq a b) := by
  unfold rowByRowEq; infer_instance

/-- The round trip of C1: serialize with `serialize_le`, deserialize the
produced bytes with `deserialize_le` pre-set to expect `a.len()` rows, and
require a row-by-row equal result with the whole stream consumed. -/
def roundTripB (k : Nat) (a : ArrayVector (Elem k)) : Bool :=
  match serializeLE k a with
  | .ok (_, bytes) =>
    match deserializeLE k a.len bytes with
    | .ok (b, rest) => decide (rowByRowEq b a) && rest.isEmpty
    | .error _ => false
  | .error _ => false

/-- Propositional form of the C1 round trip. -/
def roundTripLE (k : Nat) (a : ArrayVector (Elem k)) : Prop :=
  roundTripB k a = true

/-! ### Byte-level helper lemmas -/

theorem encLE_length (k v : Nat) : (encLE k v).length = k := by
  induction k generalizing v with
  | zero => rfl
  | succ k ih => simp [encLE, ih]

theorem decLE_encLE (k v : Nat) (h : v < 2 ^ (8 * k)) :
    decLE (encLE k v) = v := by
  induction k generalizing v with
  | zero =>
    simp only [encLE, decLE]
    omega
  | succ k ih =>
    have hb : v / 256 < 2 ^ (8 * k) := by
      have h2 : 2 ^ (8 * (k + 1)) = 2 ^ (8 * k) * 256 := by ring
      rw [h2] at h
      omega
    simp only [encLE, decLE, ih _ hb]
    omega

theorem putU32le_eq_encLE (v : Nat) : putU32le v = encLE 4 v := by
  have h1 : v / 65536 = v / 256 / 256 := by omega
  have h2 : v / 16777216 = v / 256 / 256 / 256 := by omega
  simp only [putU32le, encLE, h1, h2]

theorem putU16le_eq_encLE (v : Nat) : putU16le v = encLE 2 v := by
  simp only [putU16le, encLE]

theorem readU8_enc (d : Nat) (rest : List Nat) (h : d < 2 ^ (8 * 1)) :
    readU8 (encLE 1 d ++ rest) = .ok (d, rest) := by
  have hd : d % 256 = d := Nat.mod_eq_of_lt (by omega)
  simp only [encLE, List.cons_append, List.nil_append, readU8, hd]

theorem readU16le_enc (d : Nat) (rest : List Nat) (h : d < 2 ^ (8 * 2)) :
    readU16le (encLE 2 d ++ rest) = .ok (d, rest) := by
  have hd : d % 256 + 256 * (d / 256 % 256) = d := by omega
  simp only [encLE, List.cons_append, List.nil_append, readU16le, hd]

theorem readU32le_enc (d : Nat) (rest : List Nat) (h : d < 2 ^ (8 * 4)) :
    readU32le (encLE 4 d ++ rest) = .ok (d, rest) := by
  have hd : d % 256 + 256 * (d / 256 % 256) + 65536 * (d / 256 / 256 % 256) +
      16777216 * (d / 256 / 256 / 256 % 256) = d := by omega
  simp only [encLE, List.cons_append, List.nil_append, readU32le, hd]

theorem readElem_enc (k : Nat) (v : Elem k) (rest : List Nat) :
    readElem k true (encLE k v.val ++ rest) = .ok (v, rest) := by
  have hlen : (encLE k v.val).length = k := encLE_length k v.val
  have hle : k ≤ (encLE k v.val ++ rest).length := by
    simp [hlen]
  have htake : (encLE k v.val ++ rest).take k = encLE k v.val :=
    List.take_left' hlen
  have hdrop : (encLE k v.val ++ rest).drop k = rest :=
    List.drop_left' hlen
  simp only [readElem, if_pos hle, htake, hdrop, if_pos rfl]
  congr 1
  refine congrArg (fun x => (x, rest)) (Fin.ext ?_)
  show decLE (encLE k v.val) % 2 ^ (8 * k) = v.val
  rw [decLE_encLE k v.val v.isLt, Nat.mod_eq_of_lt v.isLt]

/-! ### Structure lemmas for the decoder loops -/

theorem lastD_append (xs ys : List Nat) (h : ys ≠ []) :
    lastD (xs ++ ys) = lastD ys := by
  induction xs with
  | nil => rfl
  | cons x xs ih =>
    rw [List.cons_append]
    have hne : xs ++ ys ≠ [] := by
      simp [h]
    match hxy : xs ++ ys with
    | [] => exact absurd hxy hne
    | z :: zs => rw [← hxy, ← ih]; rw [hxy]; rfl

theorem cumSums_ne_nil (prev : Nat) (l : List Nat) (h : l ≠ []) :
    cumSums prev l ≠ [] := by
  match l with
  | [] => exact absurd rfl h
  | d :: ds => simp [cumSums]

theorem cumSums_lastD (prev : Nat) (l : List Nat) (h : l ≠ []) :
    lastD (cumSums prev l) = prev + l.sum := by
  induction l generalizing prev with
  | nil => exact absurd rfl h
  | cons d ds ih =>
    match hds : ds with
    | [] => simp [cumSums, lastD]
    | e :: es =>
      rw [cumSums, show (prev + d) :: cumSums (prev + d) (e :: es) =
        [prev + d] ++ cumSums (prev + d) (e :: es) from rfl,
        lastD_append _ _ (cumSums_ne_nil _ _ (by simp)),
        ih (prev + d) (by simp)]
      simp only [List.sum_cons]
      ring

theorem cumSums_append (prev : Nat) (l1 l2 : List Nat) :
    cumSums prev (l1 ++ l2) = cumSums prev l1 ++ cumSums (prev + l1.sum) l2 := by
  induction l1 generalizing prev with
  | nil => simp [cumSums]
  | cons d ds ih =>
    simp only [List.cons_append, cumSums, List.append_eq, ih, List.sum_cons,
      Nat.add_assoc]

theorem flatMapL_append (f : α → List β) (l1 l2 : List α) :
    flatMapL f (l1 ++ l2) = flatMapL f l1 ++ flatMapL f l2 := by
  induction l1 with
  | nil => rfl
  | cons x xs ih => simp [flatMapL, ih]

theorem readDeltas_spec (w : Nat) (hw : w = 1 ∨ w = 2 ∨ w = 4)
    (lengths : List Nat) (prev : Nat) (idx : List Nat) (rest : List Nat)
    (hd : ∀ d ∈ lengths, d < 2 ^ (8 * w))
    (hsum : prev + lengths.sum ≤ usizeMax) :
    readDeltas w lengths.length prev idx (flatMapL (encLE w) lengths ++ rest) =
      .ok (prev + lengths.sum, idx ++ cumSums prev lengths, rest) := by
  induction lengths generalizing prev idx with
  | nil => simp [readDeltas, flatMapL, cumSums]
  | cons d ds ih =>
    have hdlt : d < 2 ^ (8 * w) := hd d (by simp)
    have hread : readDelta w (encLE w d ++ (flatMapL (encLE w) ds ++ rest)) =
        .ok (d, flatMapL (encLE w) ds ++ rest) := by
      rcases hw with h | h | h <;> subst h
      · exact readU8_enc d _ hdlt
      · exact readU16le_enc d _ hdlt
      · exact readU32le_enc d _ hdlt
    have hsum' : prev + d + ds.sum ≤ usizeMax := by
      simp only [List.sum_cons] at hsum
      omega
    have hok : prev + d ≤ usizeMax := by omega
    simp only [List.length_cons, flatMapL, List.append_assoc] at *
    rw [readDeltas, hread]
    simp only [if_pos hok]
    rw [ih (prev + d) (idx ++ [prev + d]) (fun x hx => hd x (by simp [hx])) hsum']
    simp only [List.sum_cons, cumSums, List.append_assoc, List.singleton_append]
    rw [Nat.add_assoc]

theorem readElems_spec (k : Nat) (vals : List (Elem k))
    (acc : List (Elem k)) (rest : List Nat) :
    readElems k true vals.length acc
        (flatMapL (fun v => encLE k v.val) vals ++ rest) =
      .ok (acc ++ vals, rest) := by
  induction vals generalizing acc with
  | nil => simp [readElems, flatMapL]
  | cons v vs ih =>
    simp only [List.length_cons, flatMapL, List.append_assoc]
    rw [readElems, readElem_enc k v _]
    show readElems k true vs.length (acc ++ [v])
        (flatMapL (fun v => encLE k v.val) vs ++ rest) = _
    rw [ih (acc ++ [v])]
    simp

theorem flatMapL_map (w : Nat) (rows : List (List (Elem k))) :
    flatMapL (fun r => encLE w r.length) rows =
      flatMapL (encLE w) (rows.map List.length) := by
  induction rows with
  | nil => rfl
  | cons r rs ih => simp [flatMapL, ih]

theorem lastD_append_cumSums (idx : List Nat) (prev : Nat) (l : List Nat)
    (h : lastD idx = prev) :
    lastD (idx ++ cumSums prev l) = prev + l.sum := by
  match hl : l with
  | [] => simp [cumSums, h]
  | d :: ds =>
    rw [lastD_append _ _ (cumSums_ne_nil _ _ (by simp)),
      cumSums_lastD _ _ (by simp)]

/-- Processing one well-formed block (given as a delta list plus the flat
element list) advances the decoder loop by one iteration: the count is
subtracted from the remaining target (with `usize` wrap-around), the deltas
are accumulated into the index, and the elements are appended to the
data. -/
theorem loop_block_raw (k w : Nat) (hw : w = 1 ∨ w = 2 ∨ w = 4)
    (lengths : List Nat) (dataVals : List (Elem k))
    (hc : lengths.length < 2 ^ 16)
    (hd : ∀ d ∈ lengths, d < 2 ^ (8 * w))
    (hdata : dataVals.length = lengths.sum)
    (f target prev : Nat) (idx : List Nat) (data : List (Elem k))
    (rest : List Nat) (ht : target ≠ 0)
    (hsum : prev + lengths.sum ≤ usizeMax)
    (hidx : lastD idx = prev) :
    deserializeLoop k true (f + 1) target prev prev idx data
        (putU16le lengths.length ++ [w, 0] ++ flatMapL (encLE w) lengths ++
          flatMapL (fun v => encLE k v.val) dataVals ++ rest) =
      deserializeLoop k true f ((target + 2 ^ 64 - lengths.length) % 2 ^ 64)
        (prev + lengths.sum) (prev + lengths.sum)
        (idx ++ cumSums prev lengths) (data ++ dataVals) rest := by
  have hc2 : lengths.length < 2 ^ (8 * 2) := by
    norm_num
    omega
  rw [deserializeLoop]
  simp only [if_neg ht]
  rw [putU16le_eq_encLE]
  simp only [List.append_assoc, List.cons_append]
  rw [readU16le_enc _ _ hc2]
  show (match readU8 (w :: 0 :: (flatMapL (encLE w) lengths ++
      (flatMapL (fun v => encLE k v.val) dataVals ++ rest))) with
    | Except.error e => Except.error e
    | .ok (w', s2) =>
      match readI8 s2 with
      | Except.error e => Except.error e
      | .ok (_, s3) =>
        match readDeltas w' lengths.length prev idx s3 with
        | Except.error e => Except.error e
        | .ok (prev1, index1, s4) =>
          let curLast := lastD index1
          match readElems k true (curLast - prev) data s4 with
          | Except.error e => Except.error e
          | .ok (data1, s5) =>
            deserializeLoop k true f
              ((target + 2 ^ 64 - lengths.length) % 2 ^ 64)
              prev1 curLast index1 data1 s5) = _
  show (match readI8 (0 :: (flatMapL (encLE w) lengths ++
      (flatMapL (fun v => encLE k v.val) dataVals ++ rest))) with
    | Except.error e => Except.error e
    | .ok (_, s3) =>
      match readDeltas w lengths.length prev idx s3 with
      | Except.error e => Except.error e
      | .ok (prev1, index1, s4) =>
        let curLast := lastD index1
        match readElems k true (curLast - prev) data s4 with
        | Except.error e => Except.error e
        | .ok (data1, s5) =>
          deserializeLoop k true f
            ((target + 2 ^ 64 - lengths.length) % 2 ^ 64)
            prev1 curLast index1 data1 s5) = _
  show (match readDeltas w lengths.length prev idx
      (flatMapL (encLE w) lengths ++
        (flatMapL (fun v => encLE k v.val) dataVals ++ rest)) with
    | Except.error e => Except.error e
    | .ok (prev1, index1, s4) =>
      let curLast := lastD index1
      match readElems k true (curLast - prev) data s4 with
      | Except.error e => Except.error e
      | .ok (data1, s5) =>
        deserializeLoop k true f
          ((target + 2 ^ 64 - lengths.length) % 2 ^ 64)
          prev1 curLast index1 data1 s5) = _
  rw [readDeltas_spec w hw lengths prev idx _ hd hsum]
  show (let curLast := lastD (idx ++ cumSums prev lengths)
    match readElems k true (curLast - prev) data
        (flatMapL (fun v => encLE k v.val) dataVals ++ rest) with
    | Except.error e => Except.error e
    | .ok (data1, s5) =>
      deserializeLoop k true f
        ((target + 2 ^ 64 - lengths.length) % 2 ^ 64)
        (prev + lengths.sum) curLast
        (idx ++ cumSums prev lengths) data1 s5) = _
  have hcur : lastD (idx ++ cumSums prev lengths) = prev + lengths.sum :=
    lastD_append_cumSums idx prev lengths hidx
  simp only [hcur, Nat.add_sub_cancel_left]
  rw [show lengths.sum = dataVals.length from hdata.symm,
    readElems_spec k dataVals data rest]

/-- `loop_block_raw` specialised to a block built from a row list by
`mkBlock`. -/
theorem loop_block (k w : Nat) (hw : w = 1 ∨ w = 2 ∨ w = 4)
    (rows : List (List (Elem k)))
    (hc : rows.length < 2 ^ 16)
    (hd : ∀ r ∈ rows, r.length < 2 ^ (8 * w))
    (f target prev : Nat) (idx : List Nat) (data : List (Elem k))
    (rest : List Nat) (ht : target ≠ 0)
    (hsum : prev + (rows.map List.length).sum ≤ usizeMax)
    (hidx : lastD idx = prev) :
    deserializeLoop k true (f + 1) target prev prev idx data
        (mkBlock k w rows ++ rest) =
      deserializeLoop k true f ((target + 2 ^ 64 - rows.length) % 2 ^ 64)
        (prev + (rows.map List.length).sum)
        (prev + (rows.map List.length).sum)
        (idx ++ cumSums prev (rows.map List.length)) (data ++ rows.flatten)
        rest := by
  have hlenmap : (rows.map List.length).length = rows.length :=
    List.length_map rows List.length
  rw [mkBlock, flatMapL_map w rows,
    show rows.length = (rows.map List.length).length from hlenmap.symm]
  exact loop_block_raw k w hw (rows.map List.length) rows.flatten
    (by rw [hlenmap]; exact hc)
    (by intro d hdm; obtain ⟨r, hr, hrd⟩ := List.mem_map.mp hdm;
        exact hrd ▸ hd r hr)
    (List.length_flatten rows)
    f target prev idx data rest ht hsum hidx

/-- A zero remaining target ends the block loop at once (for positive
fuel), producing the accumulated vector and the unread remainder. -/
theorem loop_target_zero (k : Nat) (le : Bool) (f prev lastIndex : Nat)
    (idx : List Nat) (data : List (Elem k)) (s : List Nat) (hf : 0 < f) :
    deserializeLoop k le f 0 prev lastIndex idx data s =
      .ok (⟨data, idx⟩, s) := by
  match f with
  | g + 1 => rw [deserializeLoop]; simp

/-- Processing a list of well-formed, non-empty blocks advances the decoder
loop by one iteration per block, concatenating all rows in order and
cumulating the index across block boundaries. -/
theorem loop_blocks (k w : Nat) (hw : w = 1 ∨ w = 2 ∨ w = 4)
    (groups : List (List (List (Elem k))))
    (hne : ∀ g ∈ groups, g ≠ [])
    (hc : ∀ g ∈ groups, g.length < 2 ^ 16)
    (hd : ∀ g ∈ groups, ∀ r ∈ g, r.length < 2 ^ (8 * w))
    (f target prev : Nat) (idx : List Nat) (data : List (Elem k))
    (rest : List Nat)
    (ht : (groups.map List.length).sum ≤ target)
    (ht2 : target < 2 ^ 64)
    (hsum : prev + (groups.flatten.map List.length).sum ≤ usizeMax)
    (hidx : lastD idx = prev) :
    deserializeLoop k true (f + groups.length) target prev prev idx data
        (flatMapL (mkBlock k w) groups ++ rest) =
      deserializeLoop k true f (target - (groups.map List.length).sum)
        (prev + (groups.flatten.map List.length).sum)
        (prev + (groups.flatten.map List.length).sum)
        (idx ++ cumSums prev (groups.flatten.map List.length))
        (data ++ groups.flatten.flatten) rest := by
  induction groups generalizing f target prev idx data with
  | nil => simp [flatMapL, cumSums]
  | cons g gs ih =>
    have hgne : g ≠ [] := hne g (by simp)
    have hglen : 1 ≤ g.length := by
      match g with
      | [] => exact absurd rfl hgne
      | r :: rs => simp
    simp only [List.map_cons, List.sum_cons, List.length_cons] at ht ⊢
    have htpos : target ≠ 0 := by
      have : 1 ≤ (gs.map List.length).sum + g.length := by omega
      omega
    simp only [flatMapL, List.append_assoc]
    have hfuel : f + (gs.length + 1) = (f + gs.length) + 1 := by omega
    rw [hfuel]
    have hsum1 : prev + (g.map List.length).sum ≤ usizeMax := by
      have hfl : ((g :: gs).flatten.map List.length).sum =
          (g.map List.length).sum + (gs.flatten.map List.length).sum := by
        simp [List.flatten_cons, List.map_append, List.sum_append]
      rw [hfl] at hsum
      omega
    rw [loop_block k w hw g (hc g (by simp)) (hd g (by simp))
      (f + gs.length) target prev idx data _ htpos hsum1 hidx]
    have htg : g.length ≤ target := by omega
    have hmod : (target + 2 ^ 64 - g.length) % 2 ^ 64 = target - g.length := by
      omega
    rw [hmod]
    rw [ih (fun x hx => hne x (by simp [hx])) (fun x hx => hc x (by simp [hx]))
      (fun x hx => hd x (by simp [hx])) f (target - g.length)
      (prev + (g.map List.length).sum)
      (idx ++ cumSums prev (g.map List.length)) (data ++ g.flatten)
      (by omega) (by omega)
      (by
        have hfl : ((g :: gs).flatten.map List.length).sum =
            (g.map List.length).sum + (gs.flatten.map List.length).sum := by
          simp [List.flatten_cons, List.map_append, List.sum_append]
        rw [hfl] at hsum
        omega)
      (lastD_append_cumSums idx prev (g.map List.length) hidx)]
    have hfl2 : (g :: gs).flatten.map List.length =
        g.map List.length ++ gs.flatten.map List.length := by
      simp [List.flatten_cons, List.map_append]
    rw [hfl2, cumSums_append, List.sum_append, List.append_assoc,
      List.flatten_cons, List.flatten_append, List.append_assoc]
    have : target - g.length - (gs.map List.length).sum =
        target - (g.length + (gs.map List.length).sum) := by omega
    rw [this]
    have : prev + (g.map List.length).sum +
        (gs.flatten.map List.length).sum =
        prev + ((g.map List.length).sum + (gs.flatten.map List.length).sum) := by
      omega
    rw [this]

theorem mkBlock_length_pos (k w : Nat) (rows : List (List (Elem k))) :
    1 ≤ (mkBlock k w rows).length := by
  simp [mkBlock, putU16le]

theorem flatMapL_length_ge (k w : Nat)
    (groups : List (List (List (Elem k)))) :
    groups.length ≤ (flatMapL (mkBlock k w) groups).length := by
  induction groups with
  | nil => simp [flatMapL]
  | cons g gs ih =>
    simp only [flatMapL, List.length_append, List.length_cons]
    have := mkBlock_length_pos k w g
    omega

/-- Decoding a stream of well-formed, non-empty blocks whose row counts sum
to the expected row count yields the concatenation of all rows with the
cumulative index, consuming the entire stream. -/
theorem decode_blocks (k w : Nat) (hw : w = 1 ∨ w = 2 ∨ w = 4)
    (groups : List (List (List (Elem k))))
    (hne : ∀ g ∈ groups, g ≠ [])
    (hc : ∀ g ∈ groups, g.length < 2 ^ 16)
    (hd : ∀ g ∈ groups, ∀ r ∈ g, r.length < 2 ^ (8 * w))
    (htc : (groups.map List.length).sum < 2 ^ 64)
    (hsum : (groups.flatten.map List.length).sum ≤ usizeMax) :
    deserializeLE k ((groups.map List.length).sum)
        (flatMapL (mkBlock k w) groups) =
      .ok (⟨groups.flatten.flatten,
            cumSums 0 (groups.flatten.map List.length)⟩, []) := by
  unfold deserializeLE
  have hfg : groups.length ≤ (flatMapL (mkBlock k w) groups).length :=
    flatMapL_length_ge k w groups
  have hfuel : (flatMapL (mkBlock k w) groups).length + 1 =
      ((flatMapL (mkBlock k w) groups).length + 1 - groups.length) +
        groups.length := by omega
  have hpos : 0 <
      (flatMapL (mkBlock k w) groups ++ []).length + 1 - groups.length := by
    simp only [List.append_nil]
    omega
  rw [hfuel, show flatMapL (mkBlock k w) groups =
    flatMapL (mkBlock k w) groups ++ [] from (List.append_nil _).symm,
    loop_blocks k w hw groups hne hc hd _ _ 0 [] [] []
      (Nat.le_refl _) htc (by simpa using hsum) rfl]
  rw [Nat.sub_self]
  exact loop_target_zero k true _ _ _ _ _ _ hpos

/-! ### Serializer-side lemmas -/

theorem nonDecr_tail (x : Nat) (l : List Nat)
    (h : nonDecr (x :: l) = true) : nonDecr l = true := by
  match l with
  | [] => rfl
  | y :: ys =>
    rw [nonDecr] at h
    exact (Bool.and_eq_true_iff.mp h).2

theorem nonDecr_head (x y : Nat) (l : List Nat)
    (h : nonDecr (x :: y :: l) = true) : x ≤ y := by
  rw [nonDecr] at h
  exact of_decide_eq_true (Bool.and_eq_true_iff.mp h).1

theorem nonDecr_cons_of (x : Nat) (l : List Nat)
    (hl : nonDecr l = true) (hx : ∀ y, l = y :: l.tail → x ≤ y) :
    nonDecr (x :: l) = true := by
  match l with
  | [] => rfl
  | y :: ys =>
    rw [nonDecr, Bool.and_eq_true_iff]
    exact ⟨decide_eq_true (hx y rfl), hl⟩

theorem nonDecr_zero_cons (l : List Nat) (hl : nonDecr l = true) :
    nonDecr (0 :: l) = true :=
  nonDecr_cons_of 0 l hl (fun _ _ => Nat.zero_le _)

theorem nonDecr_le_lastD (prev : Nat) (l : List Nat)
    (h : nonDecr (prev :: l) = true) : prev ≤ lastD (prev :: l) := by
  induction l generalizing prev with
  | nil => simp [lastD]
  | cons y ys ih =>
    have h1 : prev ≤ y := nonDecr_head prev y ys h
    have h2 : y ≤ lastD (y :: ys) := ih y (nonDecr_tail prev _ h)
    calc prev ≤ y := h1
      _ ≤ lastD (y :: ys) := h2
      _ = lastD (prev :: y :: ys) := rfl

theorem nonDecr_all_le_lastD (l : List Nat) (h : nonDecr l = true) :
    ∀ x ∈ l, x ≤ lastD l := by
  induction l with
  | nil => intro x hx; cases hx
  | cons y ys ih =>
    intro x hx
    rcases List.mem_cons.mp hx with hxy | hxs
    · exact hxy ▸ nonDecr_le_lastD y ys h
    · have := ih (nonDecr_tail y ys h) x hxs
      match ys with
      | [] => cases hxs
      | z :: zs => exact this

theorem diffs_length (prev : Nat) (l : List Nat) :
    (diffs prev l).length = l.length := by
  induction l generalizing prev with
  | nil => rfl
  | cons i rest ih => simp [diffs, ih]

theorem diffs_lt (prev bound : Nat) (l : List Nat)
    (h : ∀ i ∈ l, i < bound) : ∀ d ∈ diffs prev l, d < bound := by
  induction l generalizing prev with
  | nil => intro d hd; cases hd
  | cons i rest ih =>
    intro d hd
    rcases List.mem_cons.mp hd with h1 | h2
    · have : i < bound := h i (by simp)
      omega
    · exact ih i (fun x hx => h x (by simp [hx])) d h2

theorem cumSums_diffs (prev : Nat) (l : List Nat)
    (h : nonDecr (prev :: l) = true) :
    cumSums prev (diffs prev l) = l := by
  induction l generalizing prev with
  | nil => rfl
  | cons i rest ih =>
    have h1 : prev ≤ i := nonDecr_head prev i rest h
    rw [diffs, cumSums, Nat.add_sub_cancel' h1, ih i (nonDecr_tail prev _ h)]

theorem diffs_sum (prev : Nat) (l : List Nat)
    (h : nonDecr (prev :: l) = true) :
    prev + (diffs prev l).sum = lastD (prev :: l) := by
  induction l generalizing prev with
  | nil => simp [diffs, lastD]
  | cons i rest ih =>
    have h1 : prev ≤ i := nonDecr_head prev i rest h
    have h2 := ih i (nonDecr_tail prev _ h)
    rw [diffs, List.sum_cons, show lastD (prev :: i :: rest) =
      lastD (i :: rest) from rfl, ← h2]
    omega

/-- Under the invariants (monotone index, offsets `< 2 ^ 32`) the wrapping
`u32` delta computation of `serialize_le` produces exactly the little-endian
encodings of the true differences. -/
theorem serializeDeltas_diffs (l : List Nat) (prev : Nat)
    (hmono : nonDecr (prev :: l) = true)
    (hlt : ∀ i ∈ l, i < 2 ^ 32) (hprev : prev < 2 ^ 32) :
    serializeDeltas l prev = flatMapL (encLE 4) (diffs prev l) := by
  induction l generalizing prev with
  | nil => rfl
  | cons i rest ih =>
    have h1 : prev ≤ i := nonDecr_head prev i rest hmono
    have h2 : i < 2 ^ 32 := hlt i (by simp)
    have hwrap : (i % 2 ^ 32 + (2 ^ 32 - prev)) % 2 ^ 32 = i - prev := by
      omega
    have hi : i % 2 ^ 32 = i := Nat.mod_eq_of_lt h2
    rw [serializeDeltas, diffs, flatMapL, hwrap, hi, putU32le_eq_encLE,
      ih i (nonDecr_tail prev _ hmono) (fun x hx => hlt x (by simp [hx])) h2]

theorem rowByRowEq_refl (a : ArrayVector α) : rowByRowEq a a :=
  ⟨rfl, fun _ _ => rfl⟩

/-- Claim C1 (amended): for every ArrayVector over any of the six element
widths that satisfies the invariants, has at most 65535 rows, and whose
flat data buffer holds fewer than `2 ^ 32` elements, deserializing with
`deserialize_le` the bytes produced by `serialize_le`, with the decoder's
expected row count pre-set to `a.len()`, yields an ArrayVector row-by-row
equal to `a`, consuming the whole stream; an empty ArrayVector round-trips
to an empty ArrayVector (the `a.len() = 0` instance).  The claim as frozen
omits the data-length bound; it fails without it because the serializer
truncates each cumulative offset to `u32` (see the counterexample). -/
theorem c1_roundtrip (k : Nat) (a : ArrayVector (Elem k))
    (hinv : invariants a) (hrows : a.len ≤ 65535)
    (hdata : a.data.length < 2 ^ 32) :
    roundTripLE k a := by
  obtain ⟨hmono, hlast, -⟩ := hinv
  unfold roundTripLE roundTripB
  by_cases h0 : a.len = 0
  · rw [serializeLE, if_pos h0]
    show (match deserializeLE k a.len [] with
      | Except.ok (b, rest) => decide (rowByRowEq b a) && rest.isEmpty
      | Except.error _ => false) = true
    rw [h0, show deserializeLE k 0 [] =
        deserializeLoop k true 1 0 0 0 [] [] [] from rfl,
      loop_target_zero k true 1 0 0 [] [] [] Nat.one_pos]
    show decide (rowByRowEq ⟨[], []⟩ a) && List.isEmpty ([] : List Nat) = true
    have hr : rowByRowEq (⟨[], []⟩ : ArrayVector (Elem k)) a := by
      refine ⟨?_, fun i hi => absurd hi (by simp [ArrayVector.len])⟩
      simpa [ArrayVector.len] using h0.symm
    rw [decide_eq_true hr]
    rfl
  · have hne : a.index ≠ [] := by
      intro h
      exact h0 (by simp [ArrayVector.len, h])
    have hlast' : lastD a.index = a.data.length := hlast hne
    have hilt : ∀ i ∈ a.index, i < 2 ^ 32 := by
      intro i hi
      have h1 : i ≤ lastD a.index := nonDecr_all_le_lastD a.index hmono i hi
      omega
    have hmono0 : nonDecr (0 :: a.index) = true := nonDecr_zero_cons _ hmono
    have hdlen : (diffs 0 a.index).length = a.len := diffs_length 0 a.index
    have hdsum : (diffs 0 a.index).sum = a.data.length := by
      have h1 := diffs_sum 0 a.index hmono0
      have h2 : lastD (0 :: a.index) = lastD a.index := by
        match hx : a.index with
        | [] => exact absurd hx hne
        | i :: rest => rfl
      omega
    have hc : (diffs 0 a.index).length < 2 ^ 16 := by
      rw [hdlen]; omega
    have hd : ∀ d ∈ diffs 0 a.index, d < 2 ^ (8 * 4) := by
      have h32 : (2 : Nat) ^ (8 * 4) = 2 ^ 32 := by norm_num
      rw [h32]
      exact diffs_lt 0 (2 ^ 32) a.index hilt
    have hsum : 0 + (diffs 0 a.index).sum ≤ usizeMax := by
      unfold usizeMax
      omega
    have hdec : deserializeLE k a.len
        (putU16le (diffs 0 a.index).length ++ [4, 0] ++
          flatMapL (encLE 4) (diffs 0 a.index) ++
          flatMapL (fun v : Elem k => encLE k v.val) a.data ++ []) =
        Except.ok (a, ([] : List Nat)) := by
      unfold deserializeLE
      rw [loop_block_raw k 4 (by right; right; rfl) (diffs 0 a.index) a.data
        hc hd hdsum.symm _ a.len 0 [] [] [] h0 hsum rfl]
      rw [hdlen, show (a.len + 2 ^ 64 - a.len) % 2 ^ 64 = 0 by omega]
      rw [loop_target_zero k true _ _ _ _ _ _
        (by simp only [List.length_append, putU16le, List.length_cons,
              List.length_nil]
            omega)]
      rw [show ([] ++ a.data : List (Elem k)) = a.data from rfl,
        show ([] : List Nat) ++ cumSums 0 (diffs 0 a.index) =
          cumSums 0 (diffs 0 a.index) from rfl,
        cumSums_diffs 0 a.index hmono0]
    rw [serializeLE, if_neg h0]
    show (match deserializeLE k a.len
        (putU16le a.len ++ putU8 4 ++ putI8 0 ++ serializeDeltas a.index 0 ++
          flatMapL (fun v : Elem k => encLE k v.val) a.data) with
      | Except.ok (b, rest) => decide (rowByRowEq b a) && rest.isEmpty
      | Except.error _ => false) = true
    have hbytes : putU16le a.len ++ putU8 4 ++ putI8 0 ++
        serializeDeltas a.index 0 ++
          flatMapL (fun v : Elem k => encLE k v.val) a.data =
        putU16le (diffs 0 a.index).length ++ [4, 0] ++
          flatMapL (encLE 4) (diffs 0 a.index) ++
          flatMapL (fun v : Elem k => encLE k v.val) a.data ++ [] := by
      rw [hdlen, serializeDeltas_diffs a.index 0 hmono0 hilt (by norm_num)]
      simp [putU8, putI8, List.append_assoc]
    rw [hbytes, hdec]
    show decide (rowByRowEq a a) && List.isEmpty ([] : List Nat) = true
    rw [decide_eq_true (rowByRowEq_refl a)]
    rfl

/-- Witness for C1: a concrete two-row `i8` array vector round-trips. -/
theorem c1_witness :
    invariants (⟨[⟨7, by decide⟩, ⟨9, by decide⟩], [1, 2]⟩ :
        ArrayVector (Elem 1)) ∧
      roundTripLE 1 ⟨[⟨7, by decide⟩, ⟨9, by decide⟩], [1, 2]⟩ :=
  ⟨by decide,
    c1_roundtrip 1 ⟨[⟨7, by decide⟩, ⟨9, by decide⟩], [1, 2]⟩
      (by decide) (by decide) (by decide)⟩

/-- The zero element of width `k`. -/
def zeroElem (k : Nat) : Elem k := ⟨0, Nat.two_pow_pos (8 * k)⟩

theorem flatMapL_enc_replicate_zero (n : Nat) :
    flatMapL (fun v : Elem 1 => encLE 1 v.val) (List.replicate n (zeroElem 1)) =
      List.replicate n 0 := by
  induction n with
  | zero => rfl
  | succ n ih =>
    rw [List.replicate_succ, List.replicate_succ]
    show encLE 1 (zeroElem 1).val ++ _ = _
    rw [ih]
    rfl

/-- A one-row `i8` ArrayVector whose single row holds `2 ^ 32` elements:
it satisfies the invariants and the 65535-row bound of C1, yet the
round trip loses the row's contents because `serialize_le` truncates the
cumulative offset `2 ^ 32` to the `u32` delta `0`. -/
def c1Big : ArrayVector (Elem 1) :=
  ⟨List.replicate (2 ^ 32) (zeroElem 1), [2 ^ 32]⟩

/-- Evaluation rule for `roundTripB` given the two codec results. -/
theorem roundTripB_eq_of (k : Nat) (a : ArrayVector (Elem k)) (r : Nat)
    (bytes : List Nat) (b : ArrayVector (Elem k)) (rest : List Nat)
    (h1 : serializeLE k a = .ok (r, bytes))
    (h2 : deserializeLE k a.len bytes = .ok (b, rest)) :
    roundTripB k a = (decide (rowByRowEq b a) && rest.isEmpty) := by
  unfold roundTripB
  rw [h1]
  show (match deserializeLE k a.len bytes with
    | Except.ok (b, rest) => decide (rowByRowEq b a) && rest.isEmpty
    | Except.error _ => false) = _
  rw [h2]

theorem append_length_pos (l1 l2 : List α) (h : 0 < l1.length) :
    0 < (l1 ++ l2).length := by
  rw [List.length_append]
  omega

/-- Decoding a stream that starts with a one-row block whose single delta
is `0`: the decoder accepts the row as empty and never looks at the rest of
the stream. -/
theorem c1_decode_aux (R : List Nat) :
    deserializeLE 1 1
        (putU16le ([0] : List Nat).length ++ [4, 0] ++
          flatMapL (encLE 4) [0] ++
          flatMapL (fun v : Elem 1 => encLE 1 v.val) [] ++ R) =
      Except.ok ((⟨[], [0]⟩ : ArrayVector (Elem 1)), R) := by
  unfold deserializeLE
  rw [loop_block_raw 1 4 (by right; right; rfl) [0] []
    (by norm_num) (by intro d hd; simp at hd; omega) rfl
    _ 1 0 [] [] R Nat.one_ne_zero (by simp [usizeMax]) rfl]
  rw [show ([0] : List Nat).length = 1 from rfl,
    show (1 + 2 ^ 64 - 1) % 2 ^ 64 = 0 by omega]
  rw [loop_target_zero 1 true _ _ _ _ _ _
    (append_length_pos _ _ (append_length_pos _ _ (append_length_pos _ _
      (append_length_pos _ _ (by simp [putU16le])))))]
  rfl

/-- A one-row vector with `n` elements decodes back, after the truncating
serialization, to a vector with one empty row whenever `n` is a multiple of
`2 ^ 32`; the two are not row-by-row equal for positive `n`. -/
theorem c1_not_roweq_aux (n : Nat) (hn : 0 < n) :
    ¬ rowByRowEq (⟨[], [0]⟩ : ArrayVector (Elem 1))
      ⟨List.replicate n (zeroElem 1), [n]⟩ := by
  rintro ⟨-, hrows⟩
  have h0 := hrows 0 (by simp [ArrayVector.len])
  rw [show getRow (⟨[], [0]⟩ : ArrayVector (Elem 1)) 0 =
      some [] by simp [getRow]] at h0
  have hg : getRow (⟨List.replicate n (zeroElem 1), [n]⟩ :
      ArrayVector (Elem 1)) 0 = some (List.replicate n (zeroElem 1)) := by
    simp [getRow]
  rw [hg] at h0
  have hlen0 := congrArg (fun l => (Option.getD l []).length) h0
  simp at hlen0
  omega

/-- Counterexample to C1 as frozen: `c1Big` satisfies the stated
hypotheses (invariants, at most 65535 rows) but does not round-trip:
deserializing its serialization yields a vector whose only row is empty
instead of holding `2 ^ 32` elements, because `serialize_le` truncates the
cumulative offset `2 ^ 32` to the `u32` delta `0`. -/
theorem c1_counterexample :
    invariants c1Big ∧ c1Big.len ≤ 65535 ∧ ¬ roundTripLE 1 c1Big := by
  refine ⟨⟨rfl, fun _ => ?_, rfl⟩, ?_, ?_⟩
  · show lastD [2 ^ 32] = (List.replicate (2 ^ 32) (zeroElem 1)).length
    rw [List.length_replicate]
    rfl
  · show ([2 ^ 32] : List Nat).length ≤ 65535
    simp
  · have hlen : c1Big.len = 1 := rfl
    have hdelta : serializeDeltas c1Big.index 0 = [0, 0, 0, 0] := by
      show putU32le ((2 ^ 32 % 2 ^ 32 + (2 ^ 32 - 0)) % 2 ^ 32) ++
        serializeDeltas [] (2 ^ 32 % 2 ^ 32) = [0, 0, 0, 0]
      norm_num [putU32le, serializeDeltas]
    have hbytes : putU16le c1Big.len ++ putU8 4 ++ putI8 0 ++
        serializeDeltas c1Big.index 0 ++
          flatMapL (fun v : Elem 1 => encLE 1 v.val) c1Big.data =
        putU16le ([0] : List Nat).length ++ [4, 0] ++
          flatMapL (encLE 4) [0] ++
          flatMapL (fun v : Elem 1 => encLE 1 v.val) [] ++
          List.replicate (2 ^ 32) 0 := by
      rw [hdelta, hlen,
        show c1Big.data = List.replicate (2 ^ 32) (zeroElem 1) from rfl,
        flatMapL_enc_replicate_zero]
      norm_num [putU16le, putU8, putI8, flatMapL, encLE]
    have h1 : serializeLE 1 c1Big =
        .ok (1, putU16le ([0] : List Nat).length ++ [4, 0] ++
          flatMapL (encLE 4) [0] ++
          flatMapL (fun v : Elem 1 => encLE 1 v.val) [] ++
          List.replicate (2 ^ 32) 0) := by
      rw [serializeLE, if_neg (by rw [hlen]; exact Nat.one_ne_zero), hbytes]
    have h2 := c1_decode_aux (List.replicate (2 ^ 32) 0)
    rw [← hlen] at h2
    have hnoteq : ¬ rowByRowEq (⟨[], [0]⟩ : ArrayVector (Elem 1)) c1Big :=
      c1_not_roweq_aux (2 ^ 32) (by norm_num)
    have hB : roundTripB 1 c1Big = false := by
      rw [roundTripB_eq_of 1 c1Big 1 _ ⟨[], [0]⟩
        (List.replicate (2 ^ 32) 0) h1 h2,
        decide_eq_false hnoteq, Bool.false_and]
    show ¬ (roundTripB 1 c1Big = true)
    rw [hB]
    simp

theorem flatMapL_congr (f g : α → List β) (l : List α)
    (h : ∀ x ∈ l, f x = g x) : flatMapL f l = flatMapL g l := by
  induction l with
  | nil => rfl
  | cons x xs ih =>
    rw [flatMapL, flatMapL, h x (by simp), ih (fun y hy => h y (by simp [hy]))]

theorem encLE_four_honest (d : Nat) (h : d < 2 ^ 32) :
    encLE 4 d = [d % 256, d / 256 % 256, d / 65536 % 256, d / 16777216] := by
  rw [← putU32le_eq_encLE, putU32le]
  have : d / 16777216 % 256 = d / 16777216 := Nat.mod_eq_of_lt (by omega)
  rw [this]

/-- Claim C2 (amended): for every non-empty ArrayVector satisfying the
invariants whose row count fits a `u16` and whose data length fits a `u32`,
`serialize_le` emits exactly one block laid out as the spec describes:
count as a little-endian `u16` equal to `a.len()`, the index-width byte 4,
the reserved byte 0, one little-endian `u32` delta per row equal to
`index[i] - index[i-1]` (`index[-1] = 0`), then the concatenated data
elements.  The claim as frozen omits the two bounds; both are necessary
because the count is truncated to `u16` (see the counterexample) and each
delta is truncated to `u32` (see C1's counterexample). -/
theorem c2_layout (k : Nat) (a : ArrayVector (Elem k))
    (hinv : invariants a) (hne : a.len ≠ 0) (hrows : a.len < 2 ^ 16)
    (hdata : a.data.length < 2 ^ 32) :
    serializeLE k a = .ok (1, specBlockLayout k a) := by
  obtain ⟨hmono, hlast, -⟩ := hinv
  have hnei : a.index ≠ [] := by
    intro h
    exact hne (by simp [ArrayVector.len, h])
  have hlast' : lastD a.index = a.data.length := hlast hnei
  have hilt : ∀ i ∈ a.index, i < 2 ^ 32 := by
    intro i hi
    have h1 : i ≤ lastD a.index := nonDecr_all_le_lastD a.index hmono i hi
    omega
  have hmono0 : nonDecr (0 :: a.index) = true := nonDecr_zero_cons _ hmono
  rw [serializeLE, if_neg hne, specBlockLayout]
  have hu16 : putU16le a.len = [a.len % 256, a.len / 256] := by
    rw [putU16le, Nat.mod_eq_of_lt (show a.len / 256 < 256 by omega)]
  have hdeltas : serializeDeltas a.index 0 =
      flatMapL (fun d => [d % 256, d / 256 % 256, d / 65536 % 256,
        d / 16777216]) (diffs 0 a.index) := by
    rw [serializeDeltas_diffs a.index 0 hmono0 hilt (by norm_num)]
    exact flatMapL_congr _ _ _ (fun d hd =>
      encLE_four_honest d (diffs_lt 0 (2 ^ 32) a.index hilt d hd))
  rw [hu16, hdeltas]
  simp [putU8, putI8, List.append_assoc]

/-- Witness for C2: the single-row `i8` vector `[[5]]`. -/
theorem c2_witness :
    invariants (⟨[⟨5, by decide⟩], [1]⟩ : ArrayVector (Elem 1)) ∧
      serializeLE 1 ⟨[⟨5, by decide⟩], [1]⟩ =
        .ok (1, specBlockLayout 1 ⟨[⟨5, by decide⟩], [1]⟩) :=
  ⟨by decide,
    c2_layout 1 ⟨[⟨5, by decide⟩], [1]⟩ (by decide) (by decide) (by decide)
      (by decide)⟩

/-- The C2 counterexample input: 65536 empty rows. -/
def c2Big : ArrayVector (Elem 1) := ⟨[], List.replicate 65536 0⟩

theorem serializeDeltas_replicate_zero (n : Nat) :
    serializeDeltas (List.replicate n 0) 0 = List.replicate (4 * n) 0 := by
  induction n with
  | zero => rfl
  | succ n ih =>
    rw [List.replicate_succ, serializeDeltas,
      show ((0 : Nat) % 2 ^ 32 + (2 ^ 32 - 0)) % 2 ^ 32 = 0 by norm_num,
      show (0 : Nat) % 2 ^ 32 = 0 by norm_num, ih,
      show putU32le 0 = [0, 0, 0, 0] by norm_num [putU32le]]
    show 0 :: 0 :: 0 :: 0 :: List.replicate (4 * n) 0 =
      List.replicate (4 * (n + 1)) 0
    rw [show 4 * (n + 1) = (((4 * n + 1) + 1) + 1) + 1 by ring,
      List.replicate_succ, List.replicate_succ, List.replicate_succ,
      List.replicate_succ]

/-- Counterexample to C2 as frozen: the vector of 65536 empty rows is
non-empty (its `len()` is 65536), but the emitted count `u16` is the
truncated `65536 % 2 ^ 16 = 0`, not a `u16` equal to `a.len()`: the block
`serialize_le` emits differs from the spec's described layout at the second
count byte (`0` emitted, `256 = 65536 / 256` required). -/
theorem c2_counterexample :
    c2Big.len ≠ 0 ∧
      ¬ (serializeLE 1 c2Big = .ok (1, specBlockLayout 1 c2Big)) := by
  have hlen : c2Big.len = 65536 := by
    show (List.replicate 65536 (0 : Nat)).length = 65536
    exact List.length_replicate _ _
  constructor
  · rw [hlen]
    norm_num
  · intro h
    rw [serializeLE, if_neg (by rw [hlen]; norm_num), specBlockLayout,
      hlen] at h
    rw [show c2Big.index = List.replicate 65536 0 from rfl,
      serializeDeltas_replicate_zero 65536,
      show c2Big.data = ([] : List (Elem 1)) from rfl] at h
    rw [show putU16le 65536 = [0, 0] by norm_num [putU16le]] at h
    rw [show (65536 : Nat) % 256 = 0 by norm_num,
      show (65536 : Nat) / 256 = 256 by norm_num] at h
    have hb := congrArg (fun r : Except Error (Nat × List Nat) =>
      (match r with
        | .ok (_, bytes) => bytes.getD 1 999
        | .error _ => 999)) h
    simp only [List.cons_append, List.nil_append, List.append_assoc,
      putU8, putI8] at hb
    rw [show ((0 : Int) % 256).toNat = 0 by norm_num] at hb
    have h1 : ([0, 0] ++ ([4 % 256] ++ ([0] ++ (List.replicate (4 * 65536) 0
      ++ flatMapL (fun v : Elem 1 => encLE 1 v.val) [])))).getD 1 999 = 0 :=
      rfl
    have h2 : ([0, 256] ++ ([4, 0] ++
        (flatMapL (fun d => [d % 256, d / 256 % 256, d / 65536 % 256,
          d / 16777216]) (diffs 0 (List.replicate 65536 0)) ++
          flatMapL (fun v : Elem 1 => encLE 1 v.val) []))).getD 1 999 =
        256 := rfl
    simp only [List.cons_append, List.nil_append] at h1 h2 hb
    omega

/-- Claim C8 (amended): the little-endian entry point `serialize_le`
succeeds on every ArrayVector value, while the big-endian entry point
`serialize` is unimplemented and fails on every value with
`Unsupported { data_form: "ArrayVector", data_type: "ALL" }` — the mirrored
entry points do not *silently* differ, but they do not both succeed: the
big-endian side reports itself unsupported instead of producing
byte-swapped output. -/
theorem c8_serialize_mirror (k : Nat) (a : ArrayVector (Elem k)) :
    serialize k a = .error (.unsupported "ArrayVector" "ALL") ∧
      (serializeLE k a).isOk = true := by
  refine ⟨rfl, ?_⟩
  rw [serializeLE]
  by_cases h : a.len = 0
  · rw [if_pos h]
    rfl
  · rw [if_neg h]
    rfl

/-- Counterexample to C8 as frozen: on the concrete one-row vector `[[0]]`
the big-endian `serialize` does not succeed (so the two entry points cannot
"both succeed and differ only in byte order"). -/
theorem c8_counterexample :
    (serialize 1 (ArrayVector.new.push [zeroElem 1])).isOk = false :=
  rfl

theorem readDelta_default (w : Nat) (s : List Nat)
    (h1 : w ≠ 1) (h2 : w ≠ 2) (h4 : w ≠ 4) :
    readDelta w s =
      .error (.invalidData "size_of_index_data: 1 2 4" (toString w)) := by
  match w with
  | 0 => rfl
  | 1 => exact absurd rfl h1
  | 2 => exact absurd rfl h2
  | 3 => rfl
  | 4 => exact absurd rfl h4
  | n + 5 => rfl

/-- Reaching a block whose count field is non-zero and whose
`size_of_index_data` byte is not 1, 2 or 4 fails the decoder loop with the
`InvalidData` error naming the allowed widths and the offending byte. -/
theorem c4_loop (k : Nat) (le : Bool)
    (f target c w r prev lastIndex : Nat) (idx : List Nat)
    (data : List (Elem k)) (rest : List Nat)
    (ht : target ≠ 0) (hc2 : c < 2 ^ 16) (hc1 : c ≠ 0)
    (h1 : w ≠ 1) (h2 : w ≠ 2) (h4 : w ≠ 4) :
    deserializeLoop k le (f + 1) target prev lastIndex idx data
        (putU16le c ++ (w :: r :: rest)) =
      .error (.invalidData "size_of_index_data: 1 2 4" (toString w)) := by
  have hc2' : c < 2 ^ (8 * 2) := by
    norm_num
    omega
  rw [deserializeLoop]
  simp only [if_neg ht]
  rw [putU16le_eq_encLE, readU16le_enc c _ hc2']
  show (match readU8 (w :: r :: rest) with
    | Except.error e => Except.error e
    | .ok (w', s2) =>
      match readI8 s2 with
      | Except.error e => Except.error e
      | .ok (_, s3) =>
        match readDeltas w' c prev idx s3 with
        | Except.error e => Except.error e
        | .ok (prev1, index1, s4) =>
          let curLast := lastD index1
          match readElems k le (curLast - lastIndex) data s4 with
          | Except.error e => Except.error e
          | .ok (data1, s5) =>
            deserializeLoop k le f ((target + 2 ^ 64 - c) % 2 ^ 64)
              prev1 curLast index1 data1 s5) = _
  show (match readDeltas w c prev idx rest with
    | Except.error e => Except.error e
    | .ok (prev1, index1, s4) =>
      let curLast := lastD index1
      match readElems k le (curLast - lastIndex) data s4 with
      | Except.error e => Except.error e
      | .ok (data1, s5) =>
        deserializeLoop k le f ((target + 2 ^ 64 - c) % 2 ^ 64)
          prev1 curLast index1 data1 s5) = _
  obtain ⟨c', rfl⟩ : ∃ c', c = c' + 1 := ⟨c - 1, by omega⟩
  rw [readDeltas, readDelta_default w _ h1 h2 h4]

/-- Claim C4 (amended): when an ArrayVector block header carrying a
`size_of_index_data` byte other than 1, 2 or 4 (e.g. 8) is reached with a
non-zero remaining row target and a non-zero count field, both
`deserialize` and `deserialize_le` fail with `InvalidData` whose expected
field describes the allowed widths 1 2 4 and whose actual field is the
offending byte.  The claim as frozen quantifies over *every* stream
containing such a header; it fails for a header whose count field is 0,
because the width byte is only examined inside the per-delta loop (see the
counterexample). -/
theorem c4_bad_width (k : Nat) (target c w r : Nat) (rest : List Nat)
    (ht : target ≠ 0) (hc2 : c < 2 ^ 16) (hc1 : c ≠ 0)
    (h1 : w ≠ 1) (h2 : w ≠ 2) (h4 : w ≠ 4) :
    deserializeLE k target (putU16le c ++ (w :: r :: rest)) =
        .error (.invalidData "size_of_index_data: 1 2 4" (toString w)) ∧
      deserializeBE k target (putU16le c ++ (w :: r :: rest)) =
        .error (.invalidData "size_of_index_data: 1 2 4" (toString w)) := by
  constructor
  · exact c4_loop k true _ target c w r 0 0 [] [] rest ht hc2 hc1 h1 h2 h4
  · exact c4_loop k false _ target c w r 0 0 [] [] rest ht hc2 hc1 h1 h2 h4

/-- Witness for C4: a header with count 1 and width byte 8. -/
theorem c4_witness :
    deserializeLE 1 1 (putU16le 1 ++ (8 :: 0 :: [])) =
        .error (.invalidData "size_of_index_data: 1 2 4" (toString 8)) ∧
      deserializeBE 1 1 (putU16le 1 ++ (8 :: 0 :: [])) =
        .error (.invalidData "size_of_index_data: 1 2 4" (toString 8)) :=
  c4_bad_width 1 1 1 8 0 [] (by decide) (by decide) (by decide) (by decide)
    (by decide) (by decide)

/-- Counterexample to C4 as frozen: a stream whose first block header has
count 0 and width byte 8 — the bad width is never examined, the decoder
moves on to the next (valid) block and succeeds instead of failing with
`InvalidData`. -/
theorem c4_counterexample :
    deserializeLE 1 1 [0, 0, 8, 0, 1, 0, 1, 0, 2, 7, 9] =
      .ok ((⟨[⟨7, by decide⟩, ⟨9, by decide⟩], [2]⟩ :
        ArrayVector (Elem 1)), []) := rfl

theorem nonDecr_getD_succ (l : List Nat) (h : nonDecr l = true) (i : Nat)
    (hi : i + 1 < l.length) : l.getD i 0 ≤ l.getD (i + 1) 0 := by
  induction l generalizing i with
  | nil => simp at hi
  | cons y ys ih =>
    match ys, i with
    | [], _ => simp at hi
    | z :: zs, 0 =>
      show y ≤ z
      exact nonDecr_head y z zs h
    | z :: zs, n + 1 =>
      show (z :: zs).getD n 0 ≤ (z :: zs).getD (n + 1) 0
      exact ih (nonDecr_tail y _ h) n (by simpa using hi)

/-- Claim C6: for every ArrayVector satisfying the invariants and every row
position `i < a.len()`, indexing returns exactly the slice
`data[index[i-1]..index[i]]` with `index[-1] = 0` (the `rowSpec` definition
transcribes the spec's words): the bounds checks of the Rust slice cannot
panic. -/
theorem c6_index_slice (a : ArrayVector α) (i : Nat)
    (hinv : invariants a) (hi : i < a.len) :
    getRow a i = some (rowSpec a i) := by
  obtain ⟨hmono, hlast, -⟩ := hinv
  have hi' : i < a.index.length := hi
  have hne : a.index ≠ [] := by
    intro h
    rw [h] at hi'
    simp at hi'
  have hmem : a.index.getD i 0 ∈ a.index := by
    rw [List.getD_eq_getElem a.index 0 hi']
    exact List.getElem_mem _
  have hstop : a.index.getD i 0 ≤ a.data.length := by
    have h1 := nonDecr_all_le_lastD a.index hmono _ hmem
    rw [hlast hne] at h1
    exact h1
  have hstart : (if i = 0 then 0 else a.index.getD (i - 1) 0) ≤
      a.index.getD i 0 := by
    by_cases h0 : i = 0
    · simp [h0]
    · rw [if_neg h0]
      have h1 := nonDecr_getD_succ a.index hmono (i - 1) (by omega)
      rwa [show i - 1 + 1 = i by omega] at h1
  rw [getRow, if_pos hi', if_pos ⟨hstart, hstop⟩, rowSpec]

/-- Witness for C6: row 1 of the vector `[[10], [20, 30]]`. -/
theorem c6_witness :
    getRow (⟨[10, 20, 30], [1, 3]⟩ : ArrayVector Nat) 1 =
      some (rowSpec (⟨[10, 20, 30], [1, 3]⟩ : ArrayVector Nat) 1) :=
  c6_index_slice ⟨[10, 20, 30], [1, 3]⟩ 1 (by decide) (by decide)

theorem nonDecr_append_last (l : List Nat) (x : Nat)
    (h : nonDecr l = true) (hx : lastD l ≤ x) :
    nonDecr (l ++ [x]) = true := by
  induction l with
  | nil => rfl
  | cons y ys ih =>
    match ys with
    | [] =>
      show (decide (y ≤ x) && nonDecr [x]) = true
      rw [Bool.and_eq_true_iff]
      exact ⟨decide_eq_true hx, rfl⟩
    | z :: zs =>
      show (decide (y ≤ z) && nonDecr ((z :: zs) ++ [x])) = true
      rw [Bool.and_eq_true_iff]
      exact ⟨decide_eq_true (nonDecr_head y z zs h),
        ih (nonDecr_tail y _ h) hx⟩

/-- Invariant maintenance along `new` / `push` / `clear`: the index stays
non-decreasing and the data length always equals the last index entry
(`0` for the empty index). -/
theorem reachable_props (a : ArrayVector α) (h : Reachable a) :
    nonDecr a.index = true ∧ a.data.length = lastD a.index := by
  induction h with
  | new => exact ⟨rfl, rfl⟩
  | push b v _ ih =>
    obtain ⟨h1, h2⟩ := ih
    constructor
    · exact nonDecr_append_last b.index _ h1
        (by rw [← h2]; simp [ArrayVector.push])
    · show (b.data ++ v).length = lastD (b.index ++ [(b.data ++ v).length])
      rw [lastD_append _ _ (by simp)]
      rfl
  | clear b => exact ⟨rfl, rfl⟩

/-- Claim C7: every ArrayVector reachable from `new()` by `push` and
`clear` satisfies all three invariants: the index is non-strictly
monotonically non-decreasing, `index.last() == data.len()` whenever the
index is non-empty, and `len() == index.len()`. -/
theorem c7_reachable_invariants (a : ArrayVector α) (h : Reachable a) :
    invariants a := by
  obtain ⟨h1, h2⟩ := reachable_props a h
  exact ⟨h1, fun _ => h2.symm, rfl⟩

/-- Witness for C7: the state `new.push [1,2].push [].clear.push [7]`. -/
theorem c7_witness :
    invariants ((((ArrayVector.new (α := Nat)).push [1, 2]).push
      []).clear.push [7]) :=
  c7_reachable_invariants _
    (Reachable.push _ _ (Reachable.clear _ (Reachable.push _ _
      (Reachable.push _ _ Reachable.new))))

theorem lastD_eq_getD (l : List Nat) (h : l ≠ []) :
    lastD l = l.getD (l.length - 1) 0 := by
  induction l with
  | nil => exact absurd rfl h
  | cons y ys ih =>
    match ys with
    | [] => rfl
    | z :: zs =>
      show lastD (z :: zs) = (y :: z :: zs).getD ((z :: zs).length + 1 - 1) 0
      rw [ih (by simp), show (z :: zs).length + 1 - 1 = (z :: zs).length
        from rfl]
      rfl

theorem getRow_empty_stop (a : ArrayVector α) (i : Nat)
    (hi : i < a.index.length) (h : getRow a i = some []) :
    a.index.getD i 0 = (if i = 0 then 0 else a.index.getD (i - 1) 0) := by
  rw [getRow, if_pos hi] at h
  by_cases hc : (if i = 0 then 0 else a.index.getD (i - 1) 0) ≤
      a.index.getD i 0 ∧ a.index.getD i 0 ≤ a.data.length
  · rw [if_pos hc] at h
    obtain ⟨hc1, hc2⟩ := hc
    have hlen := congrArg (fun o : Option (List α) =>
      (o.getD []).length) h
    simp only [Option.getD_some, List.length_take, List.length_drop,
      List.length_nil] at hlen
    rw [Nat.min_eq_left (by omega)] at hlen
    omega
  · rw [if_neg hc] at h
    cases h

/-- Claim C10: `ArrayVector::is_empty` tests the flat data buffer while the
enum wrapper `ArrayVectorImpl::is_empty` tests `len() == 0`.  After
`push(vec![])` on a new ArrayVector, `len()` is 1 yet `is_empty()` is true
while the wrapper's `is_empty` is false; in general (over all states
reachable by the public mutators) the two tests disagree exactly when the
vector has non-zero length and every one of its rows is empty. -/
theorem c10_is_empty_mismatch :
    (((ArrayVector.new (α := Nat)).push []).len = 1 ∧
      ((ArrayVector.new (α := Nat)).push []).isEmpty = true ∧
      implIsEmpty ((ArrayVector.new (α := Nat)).push []) = false) ∧
    ∀ a : ArrayVector Nat, Reachable a →
      ((a.isEmpty ≠ implIsEmpty a) ↔
        (a.len ≠ 0 ∧ ∀ i, i < a.len → getRow a i = some [])) := by
  refine ⟨by decide, fun a h => ?_⟩
  obtain ⟨hmono, hdlen⟩ := reachable_props a h
  constructor
  · intro hne
    by_cases hd : a.data = []
    · have hie : a.isEmpty = true := by
        simp [ArrayVector.isEmpty, hd]
      have himpl : implIsEmpty a = false := by
        by_cases hl : a.len = 0
        · exact absurd (by simp [ArrayVector.isEmpty, implIsEmpty, hd, hl])
            hne
        · simp [implIsEmpty, hl]
      have hlen0 : a.len ≠ 0 := by
        intro h0
        rw [implIsEmpty, h0] at himpl
        simp at himpl
      refine ⟨hlen0, fun i hilen => ?_⟩
      have hlast0 : lastD a.index = 0 := by
        rw [hd] at hdlen
        simpa using hdlen.symm
      have hall : ∀ x ∈ a.index, x = 0 := by
        intro x hx
        have := nonDecr_all_le_lastD a.index hmono x hx
        omega
      have hi' : i < a.index.length := hilen
      have hstop0 : a.index.getD i 0 = 0 := by
        apply hall
        rw [List.getD_eq_getElem a.index 0 hi']
        exact List.getElem_mem _
      have hstart0 : (if i = 0 then 0 else a.index.getD (i - 1) 0) = 0 := by
        by_cases h0 : i = 0
        · simp [h0]
        · rw [if_neg h0]
          apply hall
          rw [List.getD_eq_getElem a.index 0 (by omega)]
          exact List.getElem_mem _
      rw [getRow, if_pos hi', hstart0, hstop0,
        if_pos (by simp [hd])]
      simp
    · have hie : a.isEmpty = false := by
        simp [ArrayVector.isEmpty, hd]
      have himpl : implIsEmpty a = true := by
        rcases Bool.eq_false_or_eq_true (implIsEmpty a) with h1 | h0
        · exact h1
        · exact absurd (hie.trans h0.symm) hne
      have hl0 : a.len = 0 := by
        rw [implIsEmpty] at himpl
        simpa using himpl
      have hidx : a.index = [] := by
        have : a.index.length = 0 := hl0
        exact List.eq_nil_of_length_eq_zero this
      rw [hidx] at hdlen
      exact absurd (List.eq_nil_of_length_eq_zero hdlen) hd
  · rintro ⟨hlen0, hrows⟩
    have hzero : ∀ i, i < a.len → a.index.getD i 0 = 0 := by
      intro i
      induction i with
      | zero =>
        intro h0
        have h1 := getRow_empty_stop a 0 h0 (hrows 0 h0)
        simpa using h1
      | succ n ih =>
        intro hsn
        have hn : n < a.len := by omega
        have h1 := getRow_empty_stop a (n + 1) hsn (hrows (n + 1) hsn)
        rw [if_neg (Nat.succ_ne_zero n), show n + 1 - 1 = n from rfl,
          ih hn] at h1
        exact h1
    have hne : a.index ≠ [] := by
      intro h0
      exact hlen0 (by simp [ArrayVector.len, h0])
    have hlast0 : lastD a.index = 0 := by
      rw [lastD_eq_getD a.index hne]
      refine hzero (a.index.length - 1) ?_
      have h1 : a.index.length ≠ 0 := fun h0 =>
        hne (List.eq_nil_of_length_eq_zero h0)
      show a.index.length - 1 < a.index.length
      omega
    have hd : a.data = [] :=
      List.eq_nil_of_length_eq_zero (by rw [hdlen, hlast0])
    rw [show a.isEmpty = true by simp [ArrayVector.isEmpty, hd],
      show implIsEmpty a = false by simp [implIsEmpty, hlen0]]
    simp

/-- Witness for C10: the general disagreement criterion instantiated at
the concrete state `new().push(vec![])`. -/
theorem c10_witness :
    ((((ArrayVector.new (α := Nat)).push []).isEmpty ≠
        implIsEmpty ((ArrayVector.new (α := Nat)).push [])) ↔
      (((ArrayVector.new (α := Nat)).push []).len ≠ 0 ∧
        ∀ i, i < ((ArrayVector.new (α := Nat)).push []).len →
          getRow ((ArrayVector.new (α := Nat)).push []) i = some [])) :=
  c10_is_empty_mismatch.2 _ (Reachable.push _ _ Reachable.new)

theorem flatten_ne_nil (l : List (List α)) (h0 : l ≠ [])
    (h1 : ∀ g ∈ l, g ≠ []) : l.flatten ≠ [] := by
  match l with
  | [] => exact absurd rfl h0
  | g :: gs =>
    simp only [List.flatten_cons]
    intro hflat
    exact h1 g (by simp) (List.append_eq_nil.mp hflat).1

/-- Decoding a single well-formed block (`decode_blocks` at a one-block
stream). -/
theorem decode_single (k w : Nat) (hw : w = 1 ∨ w = 2 ∨ w = 4)
    (rows : List (List (Elem k))) (hne : rows ≠ [])
    (hc : rows.length < 2 ^ 16)
    (hd : ∀ r ∈ rows, r.length < 2 ^ (8 * w))
    (hsum : (rows.map List.length).sum ≤ usizeMax) :
    deserializeLE k rows.length (mkBlock k w rows) =
      .ok (⟨rows.flatten, cumSums 0 (rows.map List.length)⟩, []) := by
  have h := decode_blocks k w hw [rows] (by simpa using hne)
    (by simpa using hc) (by simpa using hd)
    (by simp; omega) (by simpa using hsum)
  simpa [flatMapL] using h

/-- Claim C9: for rows whose sizes all fit in one byte, the block encodings
with index widths 1, 2 and 4 (same deltas, same data) all deserialize to
the same ArrayVector value: the rows concatenated with the cumulative
index, with the whole stream consumed. -/
theorem c9_width_equiv (k : Nat) (rows : List (List (Elem k)))
    (hne : rows ≠ []) (hc : rows.length < 2 ^ 16)
    (hr : ∀ r ∈ rows, r.length < 2 ^ 8)
    (hsum : (rows.map List.length).sum ≤ usizeMax) :
    deserializeLE k rows.length (mkBlock k 1 rows) =
        .ok (⟨rows.flatten, cumSums 0 (rows.map List.length)⟩, []) ∧
      deserializeLE k rows.length (mkBlock k 2 rows) =
        deserializeLE k rows.length (mkBlock k 1 rows) ∧
      deserializeLE k rows.length (mkBlock k 4 rows) =
        deserializeLE k rows.length (mkBlock k 1 rows) := by
  have hd : ∀ w, w = 1 ∨ w = 2 ∨ w = 4 → ∀ r ∈ rows,
      r.length < 2 ^ (8 * w) := by
    intro w hw r hrr
    have h8 : r.length < 2 ^ 8 := hr r hrr
    have hle : (2 : Nat) ^ 8 ≤ 2 ^ (8 * w) := by
      apply Nat.pow_le_pow_right (by norm_num)
      rcases hw with h | h | h <;> omega
    omega
  have h1 := decode_single k 1 (by left; rfl) rows hne hc
    (hd 1 (by left; rfl)) hsum
  have h2 := decode_single k 2 (by right; left; rfl) rows hne hc
    (hd 2 (by right; left; rfl)) hsum
  have h4 := decode_single k 4 (by right; right; rfl) rows hne hc
    (hd 4 (by right; right; rfl)) hsum
  exact ⟨h1, h2.trans h1.symm, h4.trans h1.symm⟩

/-- Witness for C9: the rows `[[1], [2, 3]]` over `i8`. -/
theorem c9_witness :
    deserializeLE 1 2 (mkBlock 1 1 [[⟨1, by decide⟩],
        [⟨2, by decide⟩, ⟨3, by decide⟩]]) =
      .ok (⟨[⟨1, by decide⟩, ⟨2, by decide⟩, ⟨3, by decide⟩], [1, 3]⟩,
        []) ∧
    deserializeLE 1 2 (mkBlock 1 2 [[⟨1, by decide⟩],
        [⟨2, by decide⟩, ⟨3, by decide⟩]]) =
      deserializeLE 1 2 (mkBlock 1 1 [[⟨1, by decide⟩],
        [⟨2, by decide⟩, ⟨3, by decide⟩]]) ∧
    deserializeLE 1 2 (mkBlock 1 4 [[⟨1, by decide⟩],
        [⟨2, by decide⟩, ⟨3, by decide⟩]]) =
      deserializeLE 1 2 (mkBlock 1 1 [[⟨1, by decide⟩],
        [⟨2, by decide⟩, ⟨3, by decide⟩]]) :=
  c9_width_equiv 1 [[⟨1, by decide⟩], [⟨2, by decide⟩, ⟨3, by decide⟩]]
    (by decide) (by decide) (by decide) (by decide)

/-- Claim C5: deserialization iterates blocks, accumulating rows until the
pre-set expected row count is reached; for every split of the rows into
non-empty well-formed consecutive blocks, decoding the concatenated blocks
yields all rows in order with the index deltas cumulated across block
boundaries — the same result as decoding the rows encoded as a single
block. -/
theorem c5_block_split (k : Nat) (groups : List (List (List (Elem k))))
    (hgne : groups ≠ []) (hne : ∀ g ∈ groups, g ≠ [])
    (hc : ∀ g ∈ groups, g.length < 2 ^ 16)
    (hrow : ∀ g ∈ groups, ∀ r ∈ g, r.length < 2 ^ 32)
    (htot : groups.flatten.length < 2 ^ 16)
    (hsum : (groups.flatten.map List.length).sum ≤ usizeMax) :
    deserializeLE k groups.flatten.length (flatMapL (mkBlock k 4) groups) =
        .ok (⟨groups.flatten.flatten,
          cumSums 0 (groups.flatten.map List.length)⟩, []) ∧
      deserializeLE k groups.flatten.length (flatMapL (mkBlock k 4) groups) =
        deserializeLE k groups.flatten.length (mkBlock k 4 groups.flatten) := by
  have h32 : (2 : Nat) ^ (8 * 4) = 2 ^ 32 := by norm_num
  have hcount : (groups.map List.length).sum = groups.flatten.length :=
    (List.length_flatten groups).symm
  have hflne : ∀ r ∈ groups.flatten, r.length < 2 ^ 32 := by
    intro r hrj
    obtain ⟨g, hg, hrg⟩ := List.mem_flatten.mp hrj
    exact hrow g hg r hrg
  have hmulti := decode_blocks k 4 (by right; right; rfl) groups hne hc
    (by intro g hg r hrg; rw [h32]; exact hrow g hg r hrg)
    (by rw [hcount]; omega)
    hsum
  rw [hcount] at hmulti
  have hsingle := decode_single k 4 (by right; right; rfl) groups.flatten
    (flatten_ne_nil groups hgne hne) htot
    (by intro r hrj; rw [h32]; exact hflne r hrj)
    hsum
  exact ⟨hmulti, hmulti.trans hsingle.symm⟩

/-- Witness for C5: the rows `[[1], [2, 3]]` over `i8` split into two
one-row blocks. -/
theorem c5_witness :
    deserializeLE 1 2 (flatMapL (mkBlock 1 4)
        [[[⟨1, by decide⟩]], [[⟨2, by decide⟩, ⟨3, by decide⟩]]]) =
      .ok (⟨[⟨1, by decide⟩, ⟨2, by decide⟩, ⟨3, by decide⟩], [1, 3]⟩,
        []) ∧
    deserializeLE 1 2 (flatMapL (mkBlock 1 4)
        [[[⟨1, by decide⟩]], [[⟨2, by decide⟩, ⟨3, by decide⟩]]]) =
      deserializeLE 1 2 (mkBlock 1 4
        [[⟨1, by decide⟩], [⟨2, by decide⟩, ⟨3, by decide⟩]]) :=
  c5_block_split 1 [[[⟨1, by decide⟩]], [[⟨2, by decide⟩, ⟨3, by decide⟩]]]
    (by decide) (by decide) (by decide) (by decide) (by decide) (by decide)

/-! ### C3: the running-sum overflow -/

theorem sum_replicate_nat (n x : Nat) : (List.replicate n x).sum = n * x := by
  induction n with
  | zero => simp
  | succ n ih =>
    rw [List.replicate_succ, List.sum_cons, ih]
    ring

theorem flatten_replicate_map_sum (m : Nat) (l : List (List α)) :
    ((List.replicate m l).flatten.map List.length).sum =
      m * ((l.map List.length).sum) := by
  induction m with
  | zero => simp
  | succ m ih =>
    rw [List.replicate_succ, List.flatten_cons, List.map_append,
      List.sum_append, ih]
    ring

theorem readDelta_four (s : List Nat) : readDelta 4 s = readU32le s := rfl

theorem readDeltas_step_ok (c prev d : Nat) (idx : List Nat)
    (s : List Nat) (hc : c ≠ 0) (hd : d < 2 ^ (8 * 4))
    (hok : prev + d ≤ usizeMax) :
    readDeltas 4 c prev idx (encLE 4 d ++ s) =
      readDeltas 4 (c - 1) (prev + d) (idx ++ [prev + d]) s := by
  obtain ⟨c', rfl⟩ : ∃ c', c = c' + 1 := ⟨c - 1, by omega⟩
  rw [readDeltas, readDelta_four, readU32le_enc d s hd]
  show (if prev + d ≤ usizeMax then
      readDeltas 4 c' (prev + d) (idx ++ [prev + d]) s
    else Except.error (.unsupported "ArrayVector" "Index overflow")) = _
  rw [if_pos hok, show c' + 1 - 1 = c' from rfl]

theorem readDeltas_step_overflow (c prev d : Nat) (idx : List Nat)
    (s : List Nat) (hc : c ≠ 0) (hd : d < 2 ^ (8 * 4))
    (hbad : ¬ prev + d ≤ usizeMax) :
    readDeltas 4 c prev idx (encLE 4 d ++ s) =
      .error (.unsupported "ArrayVector" "Index overflow") := by
  obtain ⟨c', rfl⟩ : ∃ c', c = c' + 1 := ⟨c - 1, by omega⟩
  rw [readDeltas, readDelta_four, readU32le_enc d s hd]
  show (if prev + d ≤ usizeMax then
      readDeltas 4 c' (prev + d) (idx ++ [prev + d]) s
    else Except.error (.unsupported "ArrayVector" "Index overflow")) = _
  rw [if_neg hbad]

/-- The largest `u32` delta. -/
def d32 : Nat := 2 ^ 32 - 1

/-- When the delta loop of a block fails, the whole decoder iteration
fails with that error. -/
theorem loop_deltas_error (k : Nat) (le : Bool)
    (f target c w r prev lastIndex : Nat) (idx : List Nat)
    (data : List (Elem k)) (rest : List Nat) (e : Error)
    (ht : target ≠ 0) (hc2 : c < 2 ^ (8 * 2))
    (herr : readDeltas w c prev idx rest = .error e) :
    deserializeLoop k le (f + 1) target prev lastIndex idx data
        (putU16le c ++ (w :: r :: rest)) = .error e := by
  rw [deserializeLoop]
  simp only [if_neg ht]
  rw [putU16le_eq_encLE, readU16le_enc c _ hc2]
  show (match readU8 (w :: r :: rest) with
    | Except.error e => Except.error e
    | .ok (w', s2) =>
      match readI8 s2 with
      | Except.error e => Except.error e
      | .ok (_, s3) =>
        match readDeltas w' c prev idx s3 with
        | Except.error e => Except.error e
        | .ok (prev1, index1, s4) =>
          let curLast := lastD index1
          match readElems k le (curLast - lastIndex) data s4 with
          | Except.error e => Except.error e
          | .ok (data1, s5) =>
            deserializeLoop k le f ((target + 2 ^ 64 - c) % 2 ^ 64)
              prev1 curLast index1 data1 s5) = _
  show (match readDeltas w c prev idx rest with
    | Except.error e => Except.error e
    | .ok (prev1, index1, s4) =>
      let curLast := lastD index1
      match readElems k le (curLast - lastIndex) data s4 with
      | Except.error e => Except.error e
      | .ok (data1, s5) =>
        deserializeLoop k le f ((target + 2 ^ 64 - c) % 2 ^ 64)
          prev1 curLast index1 data1 s5) = _
  rw [herr]

/-- A block whose count field is 65535 and whose first three deltas are all
`2 ^ 32 - 1`: feeding it to the decoder loop when the running sum `prev` is
within two deltas of `usize::MAX` overflows the checked addition at the
third delta, failing with `Unsupported { "ArrayVector", "Index overflow" }`
(not `InvalidData`). -/
theorem monster_last_block (k : Nat) (le : Bool)
    (f target prev lastIndex : Nat)
    (idx : List Nat) (data : List (Elem k))
    (ht : target ≠ 0)
    (h1 : prev + d32 ≤ usizeMax)
    (h2 : prev + d32 + d32 ≤ usizeMax)
    (h3 : ¬ prev + d32 + d32 + d32 ≤ usizeMax) :
    deserializeLoop k le (f + 1) target prev lastIndex idx data
        (putU16le 65535 ++ (4 :: 0 :: (encLE 4 d32 ++ (encLE 4 d32 ++
          (encLE 4 d32 ++ []))))) =
      .error (.unsupported "ArrayVector" "Index overflow") := by
  have hd : d32 < 2 ^ (8 * 4) := by
    show 2 ^ 32 - 1 < 2 ^ (8 * 4)
    norm_num
  have hdeltas : readDeltas 4 65535 prev idx (encLE 4 d32 ++
      (encLE 4 d32 ++ (encLE 4 d32 ++ []))) =
      .error (.unsupported "ArrayVector" "Index overflow") := by
    rw [readDeltas_step_ok 65535 prev d32 idx _ (by norm_num) hd h1,
      show (65535 : Nat) - 1 = 65534 from rfl,
      readDeltas_step_ok 65534 (prev + d32) d32 _ _ (by norm_num) hd h2,
      show (65534 : Nat) - 1 = 65533 from rfl,
      readDeltas_step_overflow 65533 (prev + d32 + d32) d32 _ _
        (by norm_num) hd h3]
  exact loop_deltas_error k le f target 65535 4 0 prev lastIndex idx data _
    _ ht (by norm_num) hdeltas

/-- Claim C3 (amended): the running sum of the index deltas is computed
with checked addition (`prev.checked_add(delta)`), and when that addition
overflows `usize` the deserialization fails — but with the `Unsupported`
error variant (data_form "ArrayVector", data_type "Index overflow"), not
with `InvalidData` as the spec states.  Stated for any decoder-loop state
about to read a width-4 block whose first delta overflows the running sum;
`c3_counterexample` shows such a state is reached from a genuine input
stream. -/
theorem c3_overflow_unsupported (k : Nat) (le : Bool)
    (f target c r prev lastIndex : Nat) (idx : List Nat)
    (data : List (Elem k)) (d : Nat) (s : List Nat)
    (ht : target ≠ 0) (hc2 : c < 2 ^ (8 * 2)) (hc1 : c ≠ 0)
    (hd : d < 2 ^ (8 * 4)) (hover : usizeMax < prev + d) :
    deserializeLoop k le (f + 1) target prev lastIndex idx data
        (putU16le c ++ (4 :: r :: (encLE 4 d ++ s))) =
      .error (.unsupported "ArrayVector" "Index overflow") :=
  loop_deltas_error k le f target c 4 r prev lastIndex idx data
    (encLE 4 d ++ s) _ ht hc2
    (readDeltas_step_overflow c prev d idx s hc1 hd (by omega))

/-- Witness for C3: a decoder state with the running sum at `usize::MAX`
and an incoming delta of 1 fails with the `Unsupported` overflow error. -/
theorem c3_witness :
    deserializeLoop 1 true 1 1 (2 ^ 64 - 1) 0 [] []
        (putU16le 1 ++ (4 :: 0 :: (encLE 4 1 ++ []))) =
      .error (.unsupported "ArrayVector" "Index overflow") :=
  c3_overflow_unsupported 1 true 0 1 1 0 (2 ^ 64 - 1) 0 [] [] 1 []
    (by decide) (by norm_num) (by decide) (by norm_num)
    (by show 2 ^ 64 - 1 < 2 ^ 64 - 1 + 1; omega)

/-- The rows of one full-size overflow block: 65535 rows of `2 ^ 32 - 1`
bytes each. -/
def monsterRows : List (List (Elem 1)) :=
  List.replicate 65535 (List.replicate d32 (zeroElem 1))

/-- The final, overflowing block: count 65535, width 4, three maximal
deltas. -/
def monsterTail : List Nat :=
  putU16le 65535 ++ (4 :: 0 :: (encLE 4 d32 ++ (encLE 4 d32 ++
    (encLE 4 d32 ++ []))))

/-- 65537 full-size blocks followed by the overflowing block. -/
def monsterStream : List Nat :=
  flatMapL (mkBlock 1 4) (List.replicate 65537 monsterRows) ++ monsterTail

/-- The decoder's pre-set expected row count for the monster stream. -/
def monsterTarget : Nat := 2 ^ 32 + 2

/-- Counterexample to C3 as frozen: a concrete input stream on which the
running index sum reaches `usize::MAX` after 65537 full blocks and two more
maximal deltas, so the checked addition of the third delta of the last
block overflows — and the failure is the `Unsupported` variant, not
`InvalidData`. -/
theorem c3_counterexample :
    deserializeLE 1 monsterTarget monsterStream =
        .error (.unsupported "ArrayVector" "Index overflow") ∧
      (Error.unsupported "ArrayVector" "Index overflow").isInvalidData =
        false := by
  refine ⟨?_, rfl⟩
  have hmrlen : monsterRows.length = 65535 := List.length_replicate _ _
  have hmrne : monsterRows ≠ [] := by
    intro hnil
    rw [hnil] at hmrlen
    simp at hmrlen
  have hlen : 65537 ≤ monsterStream.length := by
    have h0 := flatMapL_length_ge 1 4 (List.replicate 65537 monsterRows)
    rw [List.length_replicate] at h0
    have h1 : monsterStream.length =
        (flatMapL (mkBlock 1 4) (List.replicate 65537 monsterRows)).length +
          monsterTail.length := List.length_append _ _
    omega
  have hScsum : (List.map List.length
      (List.replicate 65537 monsterRows)).sum = 65537 * 65535 := by
    rw [List.map_replicate, hmrlen, sum_replicate_nat]
  have hinner : (List.map List.length monsterRows).sum = 65535 * d32 := by
    show (List.map List.length
      (List.replicate 65535 (List.replicate d32 (zeroElem 1)))).sum = _
    rw [List.map_replicate, List.length_replicate, sum_replicate_nat]
  have hSsum : (List.map List.length
      (List.replicate 65537 monsterRows).flatten).sum =
      65537 * (65535 * d32) := by
    rw [flatten_replicate_map_sum, hinner]
  show deserializeLoop 1 true (monsterStream.length + 1) monsterTarget
    0 0 [] [] monsterStream = _
  rw [show monsterStream.length + 1 = (monsterStream.length + 1 - 65537) +
      (List.replicate 65537 monsterRows).length from by
    rw [List.length_replicate]; omega]
  rw [show monsterStream = flatMapL (mkBlock 1 4)
      (List.replicate 65537 monsterRows) ++ monsterTail from rfl]
  rw [loop_blocks 1 4 (by right; right; rfl)
    (List.replicate 65537 monsterRows)
    (by
      intro g hg
      rw [List.eq_of_mem_replicate hg]
      exact hmrne)
    (by
      intro g hg
      rw [List.eq_of_mem_replicate hg, hmrlen]
      norm_num)
    (by
      intro g hg r hr
      rw [List.eq_of_mem_replicate hg] at hr
      rw [List.eq_of_mem_replicate hr, List.length_replicate]
      show d32 < 2 ^ (8 * 4)
      norm_num [d32])
    _ monsterTarget 0 [] [] monsterTail
    (by rw [hScsum]; norm_num [monsterTarget])
    (by norm_num [monsterTarget])
    (by rw [hSsum]; norm_num [d32, usizeMax])
    rfl]
  rw [hScsum, show monsterTarget - 65537 * 65535 = 3 from by
    norm_num [monsterTarget]]
  rw [hSsum, Nat.zero_add]
  rw [show (flatMapL (mkBlock 1 4) (List.replicate 65537 monsterRows) ++
        monsterTail).length + 1 - 65537 =
      ((flatMapL (mkBlock 1 4) (List.replicate 65537 monsterRows) ++
        monsterTail).length - 65537) + 1 from by
    have h2 : 65537 ≤ (flatMapL (mkBlock 1 4)
        (List.replicate 65537 monsterRows) ++ monsterTail).length := hlen
    omega]
  rw [show monsterTail = putU16le 65535 ++ (4 :: 0 :: (encLE 4 d32 ++
      (encLE 4 d32 ++ (encLE 4 d32 ++ [])))) from rfl]
  exact monster_last_block 1 true _ 3 _ _ _ _ (by norm_num)
    (by norm_num [d32, usizeMax])
    (by norm_num [d32, usizeMax])
    (by norm_num [d32, usizeMax])

end DolphinDB
